import Mathlib

set_option maxHeartbeats 1000000
set_option maxRecDepth 4000

/-!
Shallow embedding of the compendium-pack transcoder in `src/database.ts`
(functions `compileClassicLevel`, `compactClassicLevel`, `extractClassicLevel`,
`applyHierarchy`, `mapHierarchy`, `keyJoin`, `getSafeFilename`, and the
`HIERARCHY` table).  Documents are JSON-like JavaScript values; in-place
mutation of a document is modelled by returning the updated value (document
values are trees, so write-back is equivalent to reference mutation).
Thrown JavaScript errors are modelled with `Except JsErr`.
-/

/-- A JavaScript value as handled by the transcoder: `undefined`, `null`,
booleans, numbers (the documents' ids and keys are strings and the embedding
never needs fractional numbers, so `Int` suffices), strings, arrays and
objects (ordered field lists, as JS objects preserve insertion order). -/
inductive Val where
  | undefined
  | null
  | bool (b : Bool)
  | num (n : Int)
  | str (s : String)
  | arr (xs : List Val)
  | obj (fs : List (String × Val))

-- Structural equality on values (models the SameValueZero comparison used by
-- JS `Set`/`Map` for the key values the transcoder stores in them).
mutual
def Val.beq : Val → Val → Bool
  | .undefined, .undefined => true
  | .null, .null => true
  | .bool a, .bool b => a == b
  | .num a, .num b => a == b
  | .str a, .str b => a == b
  | .arr xs, .arr ys => Val.beqList xs ys
  | .obj fs, .obj gs => Val.beqFields fs gs
  | _, _ => false
def Val.beqList : List Val → List Val → Bool
  | [], [] => true
  | x :: xs, y :: ys => Val.beq x y && Val.beqList xs ys
  | _, _ => false
def Val.beqFields : List (String × Val) → List (String × Val) → Bool
  | [], [] => true
  | (k1, v1) :: fs, (k2, v2) :: gs => k1 == k2 && Val.beq v1 v2 && Val.beqFields fs gs
  | _, _ => false
end

instance : BEq Val := ⟨Val.beq⟩

-- Structural size of a value, used as the termination measure of the
-- recursive traversals.
mutual
def Val.size : Val → Nat
  | .arr xs => 1 + Val.sizeList xs
  | .obj fs => 1 + Val.sizeFields fs
  | _ => 1
def Val.sizeList : List Val → Nat
  | [] => 0
  | x :: xs => Val.size x + Val.sizeList xs
def Val.sizeFields : List (String × Val) → Nat
  | [] => 0
  | (_, v) :: fs => Val.size v + Val.sizeFields fs
end

/-- JS truthiness: `undefined`, `null`, `false`, `0` and `""` are falsy,
everything else (including `[]` and `{}`) is truthy. -/
def truthy : Val → Bool
  | .undefined => false
  | .null => false
  | .bool b => b
  | .num n => n != 0
  | .str s => s != ""
  | _ => true

-- JS string coercion (template literals, `String(x)`); only strings are
-- coerced in the runs the claims exercise, the other cases mirror JS defaults
-- for arrays and objects.
mutual
def jsStringOf : Val → String
  | .undefined => "undefined"
  | .null => "null"
  | .bool b => if b then "true" else "false"
  | .num n => toString n
  | .str s => s
  | .arr xs => jsStringOfList xs
  | .obj _ => "[object Object]"
def jsStringOfList : List Val → String
  | [] => ""
  | [x] => jsStringOf x
  | x :: xs => jsStringOf x ++ "," ++ jsStringOfList xs
end

/-- First binding of a field name in an object's field list (JS objects have
no duplicate property names, so first-match lookup is exact). -/
def lookupField : List (String × Val) → String → Option Val
  | [], _ => none
  | (k, v) :: fs, n => if k = n then some v else lookupField fs n

/-- Property read `doc[name]` as a total function: absent properties and reads
on non-objects yield `undefined`.  Reads on a `null`/`undefined` base (which
throw in JS) are handled by `getProp` below. -/
def getField : Val → String → Val
  | .obj fs, n => (lookupField fs n).getD .undefined
  | _, _ => .undefined

/-- The JS errors the transcoder can raise. -/
inductive JsErr where
  | dupKey (key : Val)
  | invalidKey (key : Val)
  | typeError (msg : String)
  | nonTermination
  | stackOverflow

/-- Property read `doc[name]` including the JS `TypeError` on a `null` or
`undefined` base object. -/
def getProp : Val → String → Except JsErr Val
  | .undefined, n => .error (.typeError ("read " ++ n ++ " of undefined"))
  | .null, n => .error (.typeError ("read " ++ n ++ " of null"))
  | v, n => .ok (getField v n)

/-- Replace the first binding of `n` (keeping its position, as JS assignment
does) or append a new binding. -/
def setInFields : List (String × Val) → String → Val → List (String × Val)
  | [], n, v => [(n, v)]
  | (k, w) :: fs, n, v => if k = n then (n, v) :: fs else (k, w) :: setInFields fs n v

/-- Property write `doc[name] = v`; in strict-mode ES modules an assignment to
a property of a primitive (or of `null`/`undefined`) throws a `TypeError`. -/
def setF : Val → String → Val → Except JsErr Val
  | .obj fs, n, v => .ok (.obj (setInFields fs n v))
  | _, n, _ => .error (.typeError ("assign " ++ n ++ " on non-object"))

/-- `delete doc[name]`: removes the binding on objects, is a no-op on other
primitives, and throws on a `null`/`undefined` base. -/
def delF : Val → String → Except JsErr Val
  | .undefined, n => .error (.typeError ("delete " ++ n ++ " of undefined"))
  | .null, n => .error (.typeError ("delete " ++ n ++ " of null"))
  | .obj fs, n => .ok (.obj (fs.filter (fun f => f.1 ≠ n)))
  | v, _ => .ok v

/-- Pure write-back used by the walker model to reflect that a child visited
in place is still referenced by the parent's field (no-op for non-objects,
where no mutation was possible). -/
def setWB : Val → String → Val → Val
  | .obj fs, n, v => .obj (setInFields fs n v)
  | v, _, _ => v

/-- Membership of a JS value in a list of JS values (models `Set.has`). -/
def memVal (x : Val) : List Val → Bool
  | [] => false
  | y :: ys => Val.beq x y || memVal x ys

/-- `undefined` or `null` (the values the JS `??` operator coalesces). -/
def nullish : Val → Bool
  | .undefined => true
  | .null => true
  | _ => false

theorem Val.size_pos : ∀ v : Val, 1 ≤ Val.size v := by
  intro v
  cases v <;> simp [Val.size]

theorem Val.sizeList_mem {x : Val} : ∀ {xs : List Val}, x ∈ xs → Val.size x ≤ Val.sizeList xs := by
  intro xs h
  induction xs with
  | nil => cases h
  | cons y ys ih =>
    rcases List.mem_cons.mp h with h1 | h1
    · subst h1; simp [Val.sizeList]
    · have := ih h1; simp [Val.sizeList]; omega

theorem Val.size_mem_arr {x : Val} {xs : List Val} (h : x ∈ xs) :
    Val.size x < Val.size (Val.arr xs) := by
  have := Val.sizeList_mem h
  simp [Val.size]; omega

theorem lookupField_size {n : String} {v : Val} :
    ∀ {fs : List (String × Val)}, lookupField fs n = some v → Val.size v ≤ Val.sizeFields fs := by
  intro fs h
  induction fs with
  | nil => simp [lookupField] at h
  | cons f fs ih =>
    obtain ⟨k, w⟩ := f
    by_cases hk : k = n
    · subst hk
      simp [lookupField] at h
      subst h; simp [Val.sizeFields]
    · simp [lookupField, hk] at h
      have := ih h; simp [Val.sizeFields]; omega

theorem getField_size {d : Val} {n : String} (h : getField d n ≠ Val.undefined) :
    Val.size (getField d n) < Val.size d := by
  cases d <;> simp [getField] at h ⊢
  case obj fs =>
    cases hl : lookupField fs n with
    | none => simp [hl] at h
    | some v =>
      have := lookupField_size hl
      simp [hl, Val.size]
      omega

/-- Whether an embedded field of the `HIERARCHY` table is collection-valued
(an array in the table) or a singular embedded document (an object). -/
inductive FieldKind where
  | coll
  | single
deriving DecidableEq

/-- The flattened Document hierarchy schema from `database.ts` (collection
name to embedded fields, in source order; arrays become `coll`, objects
`single`). -/
def HIERARCHY : List (String × List (String × FieldKind)) :=
  [("actors", [("items", .coll), ("effects", .coll)]),
   ("cards", [("cards", .coll)]),
   ("combats", [("combatants", .coll)]),
   ("delta", [("items", .coll), ("effects", .coll)]),
   ("items", [("effects", .coll)]),
   ("journal", [("pages", .coll), ("categories", .coll)]),
   ("playlists", [("sounds", .coll)]),
   ("regions", [("behaviors", .coll)]),
   ("tables", [("results", .coll)]),
   ("tokens", [("delta", .single)]),
   ("scenes", [("drawings", .coll), ("tokens", .coll), ("lights", .coll),
     ("notes", .coll), ("regions", .coll), ("sounds", .coll),
     ("templates", .coll), ("tiles", .coll), ("walls", .coll)])]

/-- Table lookup by collection name. -/
def lookupHier : List (String × List (String × FieldKind)) → String → Option (List (String × FieldKind))
  | [], _ => none
  | (k, v) :: t, c => if k = c then some v else lookupHier t c

/-- `Object.entries(HIERARCHY[collection] ?? {})`: the embedded-field
descriptors of a collection, empty for unknown collections. -/
def hierFields (collection : String) : List (String × FieldKind) :=
  (lookupHier HIERARCHY collection).getD []

/-- `keyJoin(...args)`: join the truthy arguments with `.` (source
`args.filter(_ => _).join(".")`, arguments coerced to strings by the
template literals that consume them). -/
def keyJoin (args : List Val) : String :=
  String.intercalate "." ((args.filter (fun v => truthy v)).map jsStringOf)

/-- `getSafeFilename`: replace every character outside `a-zA-Z0-9` and the
combining range U+0300-U+036F by `_`.  The source first applies NFD
normalization, which is the identity on the names used in this development
and is not modelled. -/
def getSafeFilename (filename : String) : String :=
  ⟨filename.data.map (fun c => if c.isAlphanum || (0x300 ≤ c.toNat && c.toNat ≤ 0x36F) then c else '_')⟩

/-- Node `path.join` restricted to plain relative segments (no `..`/`.`
normalization, which the transcoder never produces). -/
def pathJoin (a b : String) : String :=
  if a = "" then b else if b = "" then a else a ++ "/" ++ b

/-- Split a character list at a separator (`"".split(c)` is `[""]`). -/
def splitChars (sep : Char) : List Char → List (List Char)
  | [] => [[]]
  | c :: cs =>
    match splitChars sep cs with
    | [] => [[]]
    | g :: gs => if c.toNat = sep.toNat then [] :: g :: gs else (c :: g) :: gs

/-- `String.prototype.split` with a one-character separator, as used on the
composite keys. -/
def jsSplit (sep : Char) (s : String) : List String :=
  (splitChars sep s.data).map (fun l => ⟨l⟩)

/-- List version of `String.prototype.startsWith`. -/
def charsStart : List Char → List Char → Bool
  | [], _ => true
  | _ :: _, [] => false
  | a :: as, b :: bs => a.toNat = b.toNat && charsStart as bs

/-- `s.startsWith(p)`. -/
def strStarts (s p : String) : Bool :=
  charsStart p.data s.data

/-- `s.includes(c)` for one character. -/
def strHasChar (s : String) (c : Char) : Bool :=
  s.data.any (fun a => a.toNat = c.toNat)

/-- A visitor as passed to `applyHierarchy`: receives an explicit state
(modelling the closure's side effects), the document, its collection and the
inherited options, and returns the new state, the (possibly mutated) document
and the options value it returned (`Val.undefined` for a visitor returning
nothing). -/
def Visitor (σ : Type) : Type :=
  σ → Val → String → Val → Except JsErr (σ × Val × Val)

-- `applyHierarchy(fn)` from `database.ts`: pre-order recursion over the
-- embedded fields declared by `HIERARCHY`, threading `newOptions ?? {}` to
-- the children.  `fuel` models the JS call stack: the source recursion is
-- unbounded (a visitor may grow the document), and exhaustion corresponds to
-- a stack overflow.  The recursion at the next level is passed to the field
-- and list helpers as the function `walk`, keeping the recursion structural
-- in `fuel`.  The visitor's in-place mutations are written back into the
-- parent (`setWB`), which is equivalent to reference mutation on trees.

/-- One element list of a collection-valued embedded field, visited in
original order. -/
def applyHierarchyList {σ : Type} (walk : σ → Val → String → Val → Except JsErr (σ × Val))
    (s : σ) (xs : List Val) (collection : String) (opts : Val) :
    Except JsErr (σ × List Val) :=
  match xs with
  | [] => .ok (s, [])
  | x :: rest => do
    let r ← walk s x collection opts
    let r2 ← applyHierarchyList walk r.1 rest collection opts
    .ok (r2.1, r.2 :: r2.2)

/-- The `for (const [embeddedCollectionName, type] of Object.entries(...))`
loop of `applyHierarchy`: a collection-valued field holding an array recurses
per element; any other truthy field value recurses as a single node. -/
def applyHierarchyFields {σ : Type} (walk : σ → Val → String → Val → Except JsErr (σ × Val))
    (s : σ) (doc : Val) (entries : List (String × FieldKind)) (opts : Val) :
    Except JsErr (σ × Val) :=
  match entries with
  | [] => .ok (s, doc)
  | (name, kind) :: rest =>
    let ev := getField doc name
    match kind, ev with
    | .coll, .arr xs => do
      let r ← applyHierarchyList walk s xs name opts
      applyHierarchyFields walk r.1 (setWB doc name (.arr r.2)) rest opts
    | _, _ =>
      if truthy ev then do
        let r ← walk s ev name opts
        applyHierarchyFields walk r.1 (setWB doc name r.2) rest opts
      else
        applyHierarchyFields walk s doc rest opts

/-- `applyHierarchy(fn)`: run the visitor on the node, then recurse over the
declared embedded fields with `newOptions ?? {}`. -/
def applyHierarchy {σ : Type} (fn : Visitor σ) : Nat → σ → Val → String → Val → Except JsErr (σ × Val)
  | 0, _, _, _, _ => .error .stackOverflow
  | fuel + 1, s, doc, collection, options => do
    let r ← fn s doc collection options
    let childOpts := if nullish r.2.2 then Val.obj [] else r.2.2
    applyHierarchyFields (applyHierarchy fn fuel) r.1 r.2.1 (hierFields collection) childOpts

/-- `mapHierarchy(doc, collection, fn)` restricted to one field list:
collection-valued fields are mapped element-wise (`Promise.all` keeps order),
non-arrays are normalized to `[]`; singular fields are mapped when truthy and
normalized to `null` otherwise. -/
def mapHierarchyFields (doc : Val) (entries : List (String × FieldKind))
    (fn : Val → String → Except JsErr Val) : Except JsErr Val :=
  match entries with
  | [] => .ok doc
  | (name, kind) :: rest => do
    let ev := getField doc name
    let doc2 ←
      match kind with
      | .coll =>
        match ev with
        | .arr xs => do
          let ys ← xs.mapM (fun e => fn e name)
          setF doc name (.arr ys)
        | _ => setF doc name (.arr [])
      | .single =>
        if truthy ev then do
          let y ← fn ev name
          setF doc name y
        else setF doc name .null
    mapHierarchyFields doc2 rest fn

/-- `mapHierarchy` from `database.ts`: transform the embedded fields the
`HIERARCHY` schema declares for `collection`. -/
def mapHierarchy (doc : Val) (collection : String)
    (fn : Val → String → Except JsErr Val) : Except JsErr Val :=
  mapHierarchyFields doc (hierFields collection) fn

/-- The LevelDB store contents: an association list from string keys to
document values (unique keys maintained by `applyOp`). -/
abbrev Store := List (String × Val)

/-- Point lookup (`db.get` resolves `undefined` for a missing key in
`classic-level` 2 / `abstract-level` 2, which `storeGet` models below). -/
def lookupStr : Store → String → Option Val
  | [], _ => none
  | (k, v) :: st, n => if k = n then some v else lookupStr st n

/-- Lexicographic comparison of character lists by code point. -/
def charsLe : List Char → List Char → Bool
  | [], _ => true
  | _ :: _, [] => false
  | a :: as, b :: bs =>
    if a.toNat < b.toNat then true
    else if a.toNat = b.toNat then charsLe as bs
    else false

/-- Key comparison used to model the store's lexicographic iteration order. -/
def strLe (a b : String) : Bool :=
  charsLe a.data b.data

/-- Insertion step of the iteration-order model. -/
def insertEntry (x : String × Val) : List (String × Val) → List (String × Val)
  | [] => [x]
  | y :: ys => if strLe x.1 y.1 then x :: y :: ys else y :: insertEntry x ys

/-- The store's entries in lexicographic key order: models `db.iterator()`
and `db.keys()` full-range iteration. -/
def sortEntries : List (String × Val) → List (String × Val)
  | [] => []
  | x :: xs => insertEntry x (sortEntries xs)

/-- One staged operation of the atomic batch. -/
inductive BatchOp where
  | put (key : String) (value : Val)
  | del (key : String)

/-- Apply one batch operation (LevelDB batches apply sequentially; a put
replaces any existing entry, a delete removes it). -/
def applyOp (st : Store) : BatchOp → Store
  | .put k v => (k, v) :: st.filter (fun e => e.1 ≠ k)
  | .del k => st.filter (fun e => e.1 ≠ k)

/-- `batch.write()`: apply all staged operations in order. -/
def batchWrite (st : Store) (ops : List BatchOp) : Store :=
  ops.foldl applyOp st

/-- The compile run's mutable closure state: the `seenKeys` set (holding the
raw JS key values, which can include `undefined`) and the staged batch. -/
structure CompState where
  seen : List Val
  ops : List BatchOp

/-- `batch.put(key, ...)` key validation: `abstract-level` rejects `null` and
`undefined` keys (`LEVEL_INVALID_KEY`) when the operation is staged; other
values are coerced to strings by the `utf8` key encoding. -/
def toPutKey : Val → Except JsErr String
  | .undefined => .error (.invalidKey .undefined)
  | .null => .error (.invalidKey .null)
  | v => .ok (jsStringOf v)

/-- The compiler's visitor (the async closure passed to `applyHierarchy` in
`compileClassicLevel`): read and delete `doc._key`, fail on a duplicate key,
record the key as seen, clone the document, replace its embedded fields by
ids via `mapHierarchy(value, collection, d => d._id)` and stage the put. -/
def packVisitor : Visitor CompState := fun s doc collection _opts => do
  let keyV ← getProp doc "_key"
  let doc2 ← delF doc "_key"
  if memVal keyV s.seen then
    .error (.dupKey keyV)
  else do
    let value ← mapHierarchy doc2 collection (fun d _ => getProp d "_id")
    let k ← toPutKey keyV
    .ok ({ seen := keyV :: s.seen, ops := s.ops ++ [.put k value] }, doc2, .undefined)

/-- `packDoc(doc, collection)`: the hierarchy walk with the compiler's
visitor.  The walk recurses only into subterms of the input document, so
`Val.size doc + 1` fuel never runs out; callers pass exactly that. -/
def packDoc (fuel : Nat) (s : CompState) (doc : Val) (collection : String) :
    Except JsErr CompState :=
  (applyHierarchy packVisitor fuel s doc collection (Val.obj [])).map (fun r => r.1)

/-- The `transformEntry` hook: returns the (possibly mutated) entry and
whether it returned exactly `false` (the discard signal). -/
def TransformEntry : Type := Val → Val × Bool

/-- The per-file body of `compileClassicLevel`'s main loop (parsing is out of
scope, the file's parsed document is the input): derive the collection from
the second `!`-segment of `doc._key` (a missing segment indexes `HIERARCHY`
with `undefined`, modelled by the literal key `"undefined"`, which is absent
from the table), consult `transformEntry`, then pack. -/
def processFile (te : Option TransformEntry) (s : CompState) (doc : Val) :
    Except JsErr CompState := do
  let keyV ← getProp doc "_key"
  let ks ← match keyV with
    | .str s0 => Except.ok s0
    | _ => Except.error (.typeError "split of non-string key")
  let collection := (jsSplit '!' ks).getD 1 "undefined"
  match te with
  | some f =>
    let r := f doc
    if r.2 then .ok s else packDoc (Val.size r.1 + 1) s r.1 collection
  | none => packDoc (Val.size doc + 1) s doc collection

/-- The compiler's file loop (the `try` block rethrows, so the first error
aborts the run). -/
def processFiles (te : Option TransformEntry) (s : CompState) :
    List Val → Except JsErr CompState
  | [] => .ok s
  | f :: rest => do processFiles te (← processFile te s f) rest

/-- Fresh compile-run state. -/
def initComp : CompState := ⟨[], []⟩

/-- `compactClassicLevel`: the first and last key via single-item forward and
reverse iteration; compaction of that span is requested only when both keys
are truthy (`if (firstKey && lastKey)`), so an empty store — or an empty
*string* key at either end — requests none.  Returns the requested span. -/
def compactClassicLevel (st : Store) : Option (String × String) :=
  let ks := (sortEntries st).map (fun e => e.1)
  match ks.head?, ks.getLast? with
  | some f, some l => if f ≠ "" ∧ l ≠ "" then some (f, l) else none
  | _, _ => none

/-- The stale-deletion pass of `compileClassicLevel`: a delete is staged for
every key of the store (enumerated in iteration order by `db.keys().all()`)
that the run's seen-set does not contain. -/
def compileStaleDels (st : Store) (s : CompState) : List BatchOp :=
  ((((sortEntries st).map (fun e => e.1)).filter
    (fun k => ¬ memVal (Val.str k) s.seen = true))).map BatchOp.del

/-- `compileClassicLevel(pack, files, ...)`: pack every file, stage a delete
for every key of the store that the run did not see, write the batch
atomically and request compaction.  Returns the final store and the
compaction span request. -/
def compileClassicLevel (te : Option TransformEntry) (st : Store) (files : List Val) :
    Except JsErr (Store × Option (String × String)) := do
  let s ← processFiles te initComp files
  let st2 := batchWrite st (s.ops ++ compileStaleDels st s)
  .ok (st2, compactClassicLevel st2)

/-- The store contents after a compile run: `batch.write()` is the only store
mutation and runs after the whole loop, so an aborted run leaves the store
exactly as it was. -/
def storeAfterCompile (te : Option TransformEntry) (st : Store) (files : List Val) : Store :=
  match compileClassicLevel te st files with
  | .ok r => r.1
  | .error _ => st

/-- `db.get(key)` in `classic-level` 2 / `abstract-level` 2: a missing entry
resolves to `undefined` (it no longer rejects with a not-found error). -/
def storeGet (st : Store) (k : String) : Val :=
  (lookupStr st k).getD .undefined

/-- A folder record collected by the extractor's folder pre-pass: display
name and raw parent reference (`doc.folder`). -/
structure FolderInfo where
  name : String
  folder : Val

/-- A folder record after path resolution. -/
structure ResolvedFolder where
  name : String
  folder : Val
  path : String

/-- JS `Map.get`: lookup by SameValueZero equality on the key value. -/
def lookupV {α : Type} : List (Val × α) → Val → Option α
  | [], _ => none
  | (k, v) :: m, x => if Val.beq x k then some v else lookupV m x

/-- JS `Map.set`: replace an existing binding in place or append. -/
def mapSetV {α : Type} : List (Val × α) → Val → α → List (Val × α)
  | [], k, v => [(k, v)]
  | (k0, v0) :: m, k, v =>
    if Val.beq k k0 then (k0, v) :: m else (k0, v0) :: mapSetV m k v

/-- `getSafeFilename` applied to a JS value: `.normalize` exists only on
strings, anything else throws a `TypeError`. -/
def safeFilenameV : Val → Except JsErr String
  | .str s => .ok (getSafeFilename s)
  | _ => .error (.typeError "normalize on non-string")

/-- Default display name of a folder record:
`doc.name ? getSafeFilename(doc.name)_doc._id : key`. -/
def folderFallbackName (key : String) (doc : Val) : Except JsErr String := do
  let nmv ← getProp doc "name"
  if truthy nmv then do
    let sf ← safeFilenameV nmv
    let idv ← getProp doc "_id"
    .ok (sf ++ "_" ++ jsStringOf idv)
  else
    .ok key

/-- The extractor's folder pre-pass (`if (folders) { for await ... }`):
collect name and parent reference of every record whose key starts with
`!folders`, keyed by `doc._id`. -/
def buildFoldersAux (tfn : Option (Val → Option String)) :
    List (String × Val) → List (Val × FolderInfo) → Except JsErr (List (Val × FolderInfo))
  | [], m => .ok m
  | (key, doc) :: rest, m =>
    if strStarts key "!folders" then do
      let nm0 := match tfn with
        | some f => f doc
        | none => none
      let name ← match nm0 with
        | some s => if s ≠ "" then pure s else folderFallbackName key doc
        | none => folderFallbackName key doc
      let fol ← getProp doc "folder"
      let idv ← getProp doc "_id"
      buildFoldersAux tfn rest (mapSetV m idv ⟨name, fol⟩)
    else
      buildFoldersAux tfn rest m

/-- The parent-walking loop resolving one folder's full path
(`while (parent) { folder.path = path.join(parent.name, folder.path); ... }`).
The source loop diverges on a cyclic parent graph; `fuel` bounds the walk and
`none` reports that divergence.  An acyclic chain visits each map entry at
most once, so `m.length` fuel is always enough for it. -/
def resolvePathAux (m : List (Val × FolderInfo)) : Nat → String → Val → Option String
  | fuel, acc, ref =>
    match lookupV m ref with
    | none => some acc
    | some p =>
      match fuel with
      | 0 => none
      | fuel + 1 => resolvePathAux m fuel (pathJoin p.name acc) p.folder

/-- The second folder pre-pass loop: resolve every folder's full path by
walking parent references from the folder to the root. -/
def resolveFolderPaths (m : List (Val × FolderInfo)) :
    Except JsErr (List (Val × ResolvedFolder)) :=
  m.mapM (fun e =>
    match resolvePathAux m m.length e.2.name e.2.folder with
    | some p => .ok (e.1, ⟨e.2.name, e.2.folder, p⟩)
    | none => .error .nonTermination)

/-- The extractor's visitor (the async closure passed to `applyHierarchy` in
`extractClassicLevel`): compose this node's sublevel and id prefixes, assign
`doc._key`, resolve every embedded reference by point lookup
(`db.get("!sub.ecn!id.embeddedId")`) and pass the prefixes down. -/
def unpackVisitor (st : Store) : Visitor Unit := fun _ doc collection options => do
  let slPre := getField options "sublevelPrefix"
  let idPre := getField options "idPrefix"
  let sublevel := keyJoin [slPre, .str collection]
  let idv ← getProp doc "_id"
  let id := keyJoin [idPre, idv]
  let doc2 ← setF doc "_key" (.str ("!" ++ sublevel ++ "!" ++ id))
  let doc3 ← mapHierarchy doc2 collection (fun emb ecn =>
    .ok (storeGet st ("!" ++ sublevel ++ "." ++ ecn ++ "!" ++ id ++ "." ++ jsStringOf emb)))
  .ok ((), doc3, .obj [("sublevelPrefix", .str sublevel), ("idPrefix", .str id)])

/-- Options of an extract run; the three hooks are modelled as pure
functions (`te` returns the possibly mutated entry plus the discard flag). -/
structure ExtractOpts where
  folders : Bool
  yaml : Bool
  te : Option TransformEntry
  tn : Option (Val → Option String → Option String)
  tfn : Option (Val → Option String)

/-- The default-name computation of the extractor (source lines picking
`_Folder.<ext>` for an indexed folder record, else
`<sanitized-name>_<id>.<ext>` for a named document, else the raw key). -/
def extractBaseName (fm : List (Val × ResolvedFolder)) (yaml : Bool)
    (key id : String) (doc : Val) : Except JsErr String := do
  let idv ← getProp doc "_id"
  match strStarts key "!folders", lookupV fm idv with
  | true, some fr => .ok (pathJoin fr.name ("_Folder." ++ (if yaml then "yml" else "json")))
  | _, _ => do
    let nmv ← getProp doc "name"
    let stem ← if truthy nmv then do
        let sf ← safeFilenameV nmv
        pure (sf ++ "_" ++ id)
      else pure key
    .ok (stem ++ "." ++ (if yaml then "yml" else "json"))

/-- The `if (!name)` branch of the extractor's filename derivation: default
name, then `if (folder) name = path.join(folder, name)`. -/
def deriveNameDefault (folderPath : Option String) (fm : List (Val × ResolvedFolder))
    (yaml : Bool) (key id : String) (doc : Val) : Except JsErr String := do
  let base ← extractBaseName fm yaml key id doc
  match folderPath with
  | some p => .ok (if p ≠ "" then pathJoin p base else base)
  | none => .ok base

/-- Filename derivation of the extractor: a non-empty `transformName` result
is used verbatim; otherwise the default name, with the folder path put in front. -/
def deriveName (tnRes : Option String) (folderPath : Option String)
    (fm : List (Val × ResolvedFolder)) (yaml : Bool) (key id : String) (doc : Val) :
    Except JsErr String :=
  match tnRes with
  | some s => if s ≠ "" then .ok s else deriveNameDefault folderPath fm yaml key id doc
  | none => deriveNameDefault folderPath fm yaml key id doc

/-- The body of the extractor's main loop for one store entry: decompose the
key, skip embedded (dotted-collection) keys, unpack, consult
`transformEntry`, derive the filename and emit the write.  `.ok none` is a
`continue`. -/
def extractEntry (st : Store) (fm : List (Val × ResolvedFolder)) (opts : ExtractOpts)
    (fuel : Nat) (dest : String) (key : String) (doc : Val) :
    Except JsErr (Option (String × Val)) := do
  let parts := jsSplit '!' key
  let collection ← match parts.get? 1 with
    | some c => pure c
    | none => Except.error (.typeError "includes of undefined")
  if strHasChar collection '.' then .ok none
  else do
    let r ← applyHierarchy (unpackVisitor st) fuel () doc collection (Val.obj [])
    let tr := match opts.te with
      | some f => f r.2
      | none => (r.2, false)
    if tr.2 then .ok none
    else do
      let folv ← getProp tr.1 "folder"
      let folderPath := (lookupV fm folv).map (fun fr => fr.path)
      let tnRes := match opts.tn with
        | some f => f tr.1 folderPath
        | none => none
      let idStr := match parts.get? 2 with
        | some s => s
        | none => "undefined"
      let name ← deriveName tnRes folderPath fm opts.yaml key idStr tr.1
      .ok (some (pathJoin dest name, tr.1))

/-- The extractor's main loop: serialized files are modelled as
filename-document pairs; files written before an abort remain written, so
the loop returns the writes done so far together with the error. -/
def extractLoop (st : Store) (fm : List (Val × ResolvedFolder)) (opts : ExtractOpts)
    (fuel : Nat) (dest : String) :
    List (String × Val) → List (String × Val) × Option JsErr
  | [] => ([], none)
  | (k, d) :: rest =>
    match extractEntry st fm opts fuel dest k d with
    | .ok none => extractLoop st fm opts fuel dest rest
    | .ok (some w) =>
      let r := extractLoop st fm opts fuel dest rest
      (w :: r.1, r.2)
    | .error e => ([], some e)

/-- `extractClassicLevel(pack, dest, options)`: optional folder-index
pre-pass, then the main pass over the store in key order.  `fuel` models the
JS call stack of the unbounded unpack recursion. -/
def extractClassicLevel (opts : ExtractOpts) (fuel : Nat) (st : Store) (dest : String) :
    List (String × Val) × Option JsErr :=
  let fmE : Except JsErr (List (Val × ResolvedFolder)) :=
    if opts.folders then do
      let m ← buildFoldersAux opts.tfn (sortEntries st) []
      resolveFolderPaths m
    else .ok []
  match fmE with
  | .error e => ([], some e)
  | .ok fm => extractLoop st fm opts fuel dest (sortEntries st)

-- Specification-side definitions for the Hierarchy Walker contract (§4.1 of
-- the spec), used to state the refinement claim about `applyHierarchy`:
-- visit the root first, then every embedded node the schema declares,
-- passing each child the context value returned for its parent; a
-- collection-valued field is visited once per element in original order and
-- a singular field only when present and non-null.
mutual
def walkSpecList (f : Val → String → Val → Val) (xs : List Val) (name : String)
    (childCtx : Val) : List (Val × String × Val) :=
  match xs with
  | [] => []
  | x :: rest => walkSpec f x name childCtx ++ walkSpecList f rest name childCtx
  termination_by (Val.sizeList xs, 2)
  decreasing_by
  · exact Prod.Lex.right' _ (Nat.le_add_right _ _) (Nat.lt_succ_self 1)
  · have := Val.size_pos x
    exact Prod.Lex.left _ _ (by simp [Val.sizeList]; omega)
def walkSpecField (f : Val → String → Val → Val) (doc : Val) (childCtx : Val)
    (name : String) (kind : FieldKind) : List (Val × String × Val) :=
  match kind with
  | .coll =>
    match h : getField doc name with
    | .arr xs => walkSpecList f xs name childCtx
    | _ => []
  | .single =>
    if h : nullish (getField doc name) = true then []
    else walkSpec f (getField doc name) name childCtx
  termination_by (Val.size doc, 0)
  decreasing_by
  · have h1 : getField doc name ≠ Val.undefined := by rw [h]; intro hc; cases hc
    have h2 := getField_size h1
    rw [h] at h2
    exact Prod.Lex.left _ _ (by simp [Val.size] at h2; omega)
  · have h1 : getField doc name ≠ Val.undefined := by
      intro hc; rw [hc] at h; exact h rfl
    exact Prod.Lex.left _ _ (getField_size h1)
def walkSpec (f : Val → String → Val → Val) (doc : Val) (collection : String)
    (ctx : Val) : List (Val × String × Val) :=
  (doc, collection, ctx) ::
    (hierFields collection).flatMap (fun fk =>
      walkSpecField f doc (f doc collection ctx) fk.1 fk.2)
  termination_by (Val.size doc, 1)
  decreasing_by
  exact Prod.Lex.right _ (Nat.lt_succ_self 0)
end

-- Well-formedness of a document against the Hierarchy Schema, scoping the
-- walker contract: a collection-valued field must be absent, falsy or an
-- array of well-formed elements (the code walks a *truthy non-array* value
-- as a single node, which the spec's per-element wording does not cover),
-- and a singular field must be absent, null or truthy (JS skips a falsy
-- non-null value such as `0`, which is present and non-null).
mutual
def hierWFList (xs : List Val) (name : String) : Bool :=
  match xs with
  | [] => true
  | x :: rest => hierWF x name && hierWFList rest name
  termination_by (Val.sizeList xs, 2)
  decreasing_by
  · exact Prod.Lex.right' _ (Nat.le_add_right _ _) (Nat.lt_succ_self 1)
  · have := Val.size_pos x
    exact Prod.Lex.left _ _ (by simp [Val.sizeList]; omega)
def hierWFField (doc : Val) (name : String) (kind : FieldKind) : Bool :=
  match kind with
  | .coll =>
    match h : getField doc name with
    | .arr xs => hierWFList xs name
    | v => !truthy v
  | .single =>
    if h : nullish (getField doc name) = true then true
    else truthy (getField doc name) && hierWF (getField doc name) name
  termination_by (Val.size doc, 0)
  decreasing_by
  · have h1 : getField doc name ≠ Val.undefined := by rw [h]; intro hc; cases hc
    have h2 := getField_size h1
    rw [h] at h2
    exact Prod.Lex.left _ _ (by simp [Val.size] at h2; omega)
  · have h1 : getField doc name ≠ Val.undefined := by
      intro hc; rw [hc] at h; exact h rfl
    exact Prod.Lex.left _ _ (getField_size h1)
def hierWF (doc : Val) (collection : String) : Bool :=
  (hierFields collection).all (fun fk => hierWFField doc fk.1 fk.2)
  termination_by (Val.size doc, 1)
  decreasing_by
  exact Prod.Lex.right _ (Nat.lt_succ_self 0)
end

/-- A visitor that records each visit (document, collection, options) and
returns the context `f` computes, mutating nothing: the instrument used to
observe the walker's visit order. -/
def traceVisitor (f : Val → String → Val → Val) : Visitor (List (Val × String × Val)) :=
  fun s d c o => .ok (s ++ [(d, c, o)], d, f d c o)

-- ===================================================================
-- Claim theorems
-- ===================================================================

/-- The source file of the spec's concrete scenario (C2): an actor with one
embedded item that carries no `_key` of its own. -/
def c2File : Val :=
  .obj [("_key", .str "!actors!abc"), ("_id", .str "abc"), ("name", .str "Hero"),
    ("items", .arr [.obj [("_id", .str "i1"), ("name", .str "Sword")]])]

/-- The same scenario with the embedded item carrying its own composite key,
as extraction produces source files. -/
def c2FileKeyed : Val :=
  .obj [("_key", .str "!actors!abc"), ("_id", .str "abc"), ("name", .str "Hero"),
    ("items", .arr [.obj [("_key", .str "!actors.items!abc.i1"),
      ("_id", .str "i1"), ("name", .str "Sword")]])]

/-- C2, counterexample.  Compiling the claim's single file into an empty
store does *not* yield one stored key with the item inline: the compiler's
visitor also visits the embedded item as an entry of its own, reads its
absent `_key` (`undefined`), and the staged `batch.put(undefined, ...)` is
rejected by the store, so the run aborts and nothing is stored at all. -/
theorem c2_claim_counterexample :
    compileClassicLevel none [] [c2File] = .error (.invalidKey .undefined) ∧
    storeAfterCompile none [] [c2File] = [] :=
  ⟨rfl, rfl⟩

/-- The store contents produced by compiling `c2FileKeyed`. -/
def c2ResultStore : Store :=
  [("!actors.items!abc.i1", .obj [("_id", .str "i1"), ("name", .str "Sword"), ("effects", .arr [])]),
   ("!actors!abc", .obj [("_id", .str "abc"), ("name", .str "Hero"), ("items", .arr [.str "i1"]), ("effects", .arr [])])]

/-- C2, amended.  The compiler stores every node under its own `_key` and
replaces embedded documents by their ids in the parent's stored value: a file
whose embedded item carries no `_key` aborts the run (see the
counterexample), and with the item's `_key` present the run stores *two*
keys — the standalone `!actors.items!abc.i1` entry — while the value at
`!actors!abc` holds `items: ["i1"]`, not the item inline. -/
theorem c2_amended_standalone_keys :
    compileClassicLevel none [] [c2FileKeyed] =
      .ok (c2ResultStore, some ("!actors!abc", "!actors.items!abc.i1")) ∧
    lookupStr c2ResultStore "!actors!abc" =
      some (.obj [("_id", .str "abc"), ("name", .str "Hero"), ("items", .arr [.str "i1"]), ("effects", .arr [])]) ∧
    lookupStr c2ResultStore "!actors.items!abc.i1" =
      some (.obj [("_id", .str "i1"), ("name", .str "Sword"), ("effects", .arr [])]) :=
  ⟨rfl, rfl, rfl⟩

/-- A store with one token whose singular `delta` reference has no entry
(the composed child key `!tokens.delta!t1.d1` is absent). -/
def c6Store : Store :=
  [("!tokens!t1", .obj [("_id", .str "t1"), ("name", .str "T"), ("delta", .str "d1")])]

/-- A store with one actor whose collection-valued `items` reference has no
entry (the composed child key `!actors.items!a1.i1` is absent). -/
def c6StoreColl : Store :=
  [("!actors!a1", .obj [("_id", .str "a1"), ("name", .str "H"),
    ("items", .arr [.str "i1"]), ("effects", .arr [])])]

/-- Extraction options with no hooks, no folders, JSON output. -/
def plainExtractOpts : ExtractOpts := ⟨false, false, none, none, none⟩

/-- C6, counterexample.  A point-lookup miss for a *singular* embedded
reference is silently ignored, not fatal: extracting `c6Store` completes
without error and emits the token with `delta` left `undefined` (the `get`
miss resolves to `undefined`, the walker then skips the falsy field), i.e.
the output contains a document whose missing embedded part was silently
dropped. -/
theorem c6_claim_counterexample :
    extractClassicLevel plainExtractOpts 9 c6Store "" =
      ([("T_t1.json", .obj [("_id", .str "t1"), ("name", .str "T"),
        ("delta", .undefined), ("_key", .str "!tokens!t1")])], none) ∧
    getField (.obj [("_id", .str "t1"), ("name", .str "T"),
        ("delta", .undefined), ("_key", .str "!tokens!t1")]) "delta" = .undefined :=
  ⟨rfl, rfl⟩

/-- C6, amended.  A lookup miss is never reported as an identifiable
data-integrity error: for a singular reference the field is set to
`undefined` and the document is still emitted (first conjunct); for a
collection-valued reference the mapped array holds `undefined` and the
walker's visit of that element crashes the run with a `TypeError` on reading
`_id` of `undefined`, emitting nothing (second conjunct). -/
theorem c6_amended_miss_behavior :
    extractClassicLevel plainExtractOpts 9 c6Store "" =
      ([("T_t1.json", .obj [("_id", .str "t1"), ("name", .str "T"),
        ("delta", .undefined), ("_key", .str "!tokens!t1")])], none) ∧
    extractClassicLevel plainExtractOpts 9 c6StoreColl "" =
      ([], some (.typeError "read _id of undefined")) :=
  ⟨rfl, rfl⟩

/-- A store with a folder record and an actor referencing it. -/
def c8Store : Store :=
  [("!folders!f1", .obj [("_id", .str "f1"), ("name", .str "F")]),
   ("!actors!a1", .obj [("_id", .str "a1"), ("name", .str "H"), ("folder", .str "f1")])]

/-- Extraction options with folders enabled and a `transformName` hook that
yields the non-empty name `custom.json` for every document. -/
def c8Opts : ExtractOpts := ⟨true, false, none, some (fun _ _ => some "custom.json"), none⟩

/-- The same options without the `transformName` hook. -/
def c8OptsNoTn : ExtractOpts := ⟨true, false, none, none, none⟩

/-- The extracted actor document of the `c8Store` runs. -/
def c8ActorOut : Val :=
  .obj [("_id", .str "a1"), ("name", .str "H"), ("folder", .str "f1"),
    ("_key", .str "!actors!a1"), ("items", .arr []), ("effects", .arr [])]

/-- The extracted folder document of the `c8Store` runs. -/
def c8FolderOut : Val :=
  .obj [("_id", .str "f1"), ("name", .str "F"), ("_key", .str "!folders!f1")]

/-- C8, counterexample.  With the folder index present and the actor's
`folder` reference resolvable (the hook-less control run proves it: the same
document is written under `F_f1/H_a1.json`), a non-empty `transformName`
result is used verbatim: the file is written as `custom.json`, *not*
prefixed with the folder path. -/
theorem c8_claim_counterexample :
    extractClassicLevel c8Opts 9 c8Store "" =
      ([("custom.json", c8ActorOut), ("custom.json", c8FolderOut)], none) ∧
    extractClassicLevel c8OptsNoTn 9 c8Store "" =
      ([("F_f1/H_a1.json", c8ActorOut), ("F_f1/_Folder.json", c8FolderOut)], none) ∧
    "custom.json" ≠ pathJoin "F_f1" "custom.json" :=
  ⟨rfl, rfl, by decide⟩

/-- A source file whose composite key is the empty string. -/
def c9EmptyKeyFile : Val := .obj [("_key", .str "")]

/-- C9, counterexample.  A compile run can leave the store non-empty and yet
request no compaction: with the single key `""` the forward iterator yields
an empty-string first key, which is falsy in `if (firstKey && lastKey)`, so
the span is `none` although the store holds one key. -/
theorem c9_claim_counterexample :
    compileClassicLevel none [] [c9EmptyKeyFile] = .ok ([("", .obj [])], none) ∧
    ([("", Val.obj [])] : Store) ≠ [] ∧
    compactClassicLevel [("", .obj [])] = none :=
  ⟨rfl, fun h => List.noConfusion h, rfl⟩

theorem str_append_ne_empty (a b : String) (h : a ≠ "") : a ++ b ≠ "" := by
  obtain ⟨la⟩ := a
  obtain ⟨lb⟩ := b
  intro hc
  apply h
  have hd : la ++ lb = [] := congrArg String.data hc
  have h2 : la = [] := (List.append_eq_nil.mp hd).1
  rw [h2]

/-- The folder index of a parent chain A→B→C (C's parent is B, B's parent is
A, A's parent is `pA`). -/
def c7Map (aId bId cId : String) (pA : Val) (nA nB nC : String) : List (Val × FolderInfo) :=
  [(.str aId, ⟨nA, pA⟩), (.str bId, ⟨nB, .str aId⟩), (.str cId, ⟨nC, .str bId⟩)]

/-- C7.  Folder-path resolution: for a chain A→B→C with non-empty display
names, distinct ids and an unresolvable parent for A, the resolved paths are
`A`, `A/B` and `A/B/C` (ancestor names concatenated from root to self); and
in general any folder whose parent reference does not resolve in the index
gets a root-level path consisting of its own name. -/
theorem c7_folder_paths
    (aId bId cId : String) (pA : Val) (nA nB nC : String)
    (hroot : lookupV (c7Map aId bId cId pA nA nB nC) pA = none)
    (hba : bId ≠ aId)
    (hnA : nA ≠ "") (hnB : nB ≠ "") (hnC : nC ≠ "") :
    resolveFolderPaths (c7Map aId bId cId pA nA nB nC) =
      .ok [(.str aId, ⟨nA, pA, nA⟩),
           (.str bId, ⟨nB, .str aId, nA ++ "/" ++ nB⟩),
           (.str cId, ⟨nC, .str bId, nA ++ "/" ++ (nB ++ "/" ++ nC)⟩)] ∧
    (∀ (m : List (Val × FolderInfo)) (fl : FolderInfo) (fuel : Nat),
      lookupV m fl.folder = none →
      resolvePathAux m fuel fl.name fl.folder = some fl.name) := by
  have hstep : ∀ (m : List (Val × FolderInfo)) (fuel : Nat) (acc : String) (ref : Val)
      (p : FolderInfo), lookupV m ref = some p →
      resolvePathAux m (fuel + 1) acc ref = resolvePathAux m fuel (pathJoin p.name acc) p.folder := by
    intro m fuel acc ref p h
    rw [resolvePathAux, h]
  have hstop : ∀ (m : List (Val × FolderInfo)) (fuel : Nat) (acc : String) (ref : Val),
      lookupV m ref = none → resolvePathAux m fuel acc ref = some acc := by
    intro m fuel acc ref h
    rw [resolvePathAux, h]
  refine ⟨?_, fun m fl fuel h => hstop m fuel fl.name fl.folder h⟩
  have hself : ∀ s : String, Val.beq (.str s) (.str s) = true := by
    intro s; simp [Val.beq]
  have hdiff : Val.beq (.str bId) (.str aId) = false := by
    simp [Val.beq]; exact hba
  have hlookA : lookupV (c7Map aId bId cId pA nA nB nC) (.str aId) = some ⟨nA, pA⟩ := by
    simp [c7Map, lookupV, hself]
  have hlookB : lookupV (c7Map aId bId cId pA nA nB nC) (.str bId) = some ⟨nB, .str aId⟩ := by
    simp [c7Map, lookupV, hself, hdiff]
  have hjAB : pathJoin nA nB = nA ++ "/" ++ nB := by
    simp [pathJoin, hnA, hnB]
  have hjBC : pathJoin nB nC = nB ++ "/" ++ nC := by
    simp [pathJoin, hnB, hnC]
  have hBCne : nB ++ "/" ++ nC ≠ "" := str_append_ne_empty _ _ (str_append_ne_empty _ _ hnB)
  have hjABC : pathJoin nA (nB ++ "/" ++ nC) = nA ++ "/" ++ (nB ++ "/" ++ nC) := by
    rw [pathJoin, if_neg hnA, if_neg hBCne]
  have hA : resolvePathAux (c7Map aId bId cId pA nA nB nC) 3 nA pA = some nA :=
    hstop _ _ _ _ hroot
  have hB : resolvePathAux (c7Map aId bId cId pA nA nB nC) 3 nB (.str aId) =
      some (nA ++ "/" ++ nB) := by
    rw [show (3 : Nat) = 2 + 1 from rfl, hstep _ _ _ _ _ hlookA]
    rw [hstop _ _ _ _ hroot, hjAB]
  have hC : resolvePathAux (c7Map aId bId cId pA nA nB nC) 3 nC (.str bId) =
      some (nA ++ "/" ++ (nB ++ "/" ++ nC)) := by
    rw [show (3 : Nat) = 2 + 1 from rfl, hstep _ _ _ _ _ hlookB]
    rw [show (2 : Nat) = 1 + 1 from rfl, hstep _ _ _ _ _ hlookA]
    rw [hstop _ _ _ _ hroot, hjBC, hjABC]
  have hlen : (c7Map aId bId cId pA nA nB nC).length = 3 := rfl
  simp only [resolveFolderPaths, hlen]
  simp only [c7Map] at hA hB hC ⊢
  simp only [List.mapM_cons, List.mapM_nil, hA, hB, hC]
  rfl

/-- `Array.isArray`. -/
def isArr : Val → Bool
  | .arr _ => true
  | _ => false

theorem lookup_setInFields_self (fs : List (String × Val)) (n : String) (v : Val) :
    lookupField (setInFields fs n v) n = some v := by
  induction fs with
  | nil => simp [setInFields, lookupField]
  | cons f fs ih =>
    obtain ⟨k, w⟩ := f
    by_cases hk : k = n
    · simp [setInFields, hk, lookupField]
    · simp [setInFields, hk, lookupField, ih]

theorem lookup_setInFields_other (fs : List (String × Val)) (n m : String) (v : Val)
    (hm : m ≠ n) : lookupField (setInFields fs n v) m = lookupField fs m := by
  have hnm : ¬ n = m := fun h => hm h.symm
  induction fs with
  | nil => simp [setInFields, lookupField, hnm]
  | cons f fs ih =>
    obtain ⟨k, w⟩ := f
    by_cases hk : k = n
    · subst hk
      simp [setInFields, lookupField, hnm]
    · simp [setInFields, hk, lookupField, ih]

/-- The step of `mapHierarchyFields` for one entry always goes through
`setF`, so fields other than the entry's one are untouched. -/
theorem setF_shape {doc : Val} {n : String} {v d2 : Val} (h : setF doc n v = .ok d2) :
    ∃ fs, doc = .obj fs ∧ d2 = .obj (setInFields fs n v) := by
  cases doc <;> simp [setF] at h
  case obj fs => exact ⟨fs, rfl, h.symm⟩

theorem setF_get_self {doc : Val} {n : String} {v d2 : Val} (h : setF doc n v = .ok d2) :
    getField d2 n = v := by
  obtain ⟨fs, _, h2⟩ := setF_shape h
  subst h2
  simp [getField, lookup_setInFields_self]

theorem setF_get_other {doc : Val} {n m : String} {v d2 : Val} (h : setF doc n v = .ok d2)
    (hm : m ≠ n) : getField d2 m = getField doc m := by
  obtain ⟨fs, h1, h2⟩ := setF_shape h
  subst h1; subst h2
  simp [getField, lookup_setInFields_other fs n m v hm]

/-- The step of `mapHierarchyFields` for one entry always goes through
`setF`, so fields other than the entry's one are untouched. -/
theorem mapHFields_preserve :
    ∀ (entries : List (String × FieldKind)) (doc doc2 : Val)
      (fn : Val → String → Except JsErr Val) (m : String),
      mapHierarchyFields doc entries fn = .ok doc2 →
      m ∉ entries.map Prod.fst →
      getField doc2 m = getField doc m := by
  intro entries
  induction entries with
  | nil =>
    intro doc doc2 fn m h _
    simp [mapHierarchyFields] at h
    rw [h]
  | cons e rest ih =>
    intro doc doc2 fn m h hm
    obtain ⟨name, kind⟩ := e
    simp only [List.map_cons, List.mem_cons] at hm
    push_neg at hm
    obtain ⟨hm1, hm2⟩ := hm
    cases kind with
    | coll =>
      cases hget : getField doc name
      case arr xs =>
        simp only [mapHierarchyFields, hget] at h
        cases hmap : xs.mapM (fun e => fn e name) with
        | error e1 =>
          rw [hmap] at h
          simp [bind, Except.bind] at h
        | ok ys =>
          rw [hmap] at h
          simp only [bind, Except.bind] at h
          cases hset : setF doc name (.arr ys) with
          | error e1 => rw [hset] at h; simp at h
          | ok doc1 =>
            rw [hset] at h
            have h2 : mapHierarchyFields doc1 rest fn = .ok doc2 := h
            rw [ih doc1 doc2 fn m h2 hm2, setF_get_other hset hm1]
      all_goals
        simp only [mapHierarchyFields, hget] at h
      all_goals
        cases hset : setF doc name (.arr []) with
        | error e1 => rw [hset] at h; simp [bind, Except.bind] at h
        | ok doc1 =>
          rw [hset] at h
          have h2 : mapHierarchyFields doc1 rest fn = .ok doc2 := h
          rw [ih doc1 doc2 fn m h2 hm2, setF_get_other hset hm1]
    | single =>
      by_cases ht : truthy (getField doc name) = true
      · simp only [mapHierarchyFields, if_pos ht] at h
        cases hfn : fn (getField doc name) name with
        | error e1 => rw [hfn] at h; simp [bind, Except.bind] at h
        | ok y =>
          rw [hfn] at h
          simp only [bind, Except.bind] at h
          cases hset : setF doc name y with
          | error e1 => rw [hset] at h; simp at h
          | ok doc1 =>
            rw [hset] at h
            have h2 : mapHierarchyFields doc1 rest fn = .ok doc2 := h
            rw [ih doc1 doc2 fn m h2 hm2, setF_get_other hset hm1]
      · simp only [mapHierarchyFields, if_neg ht] at h
        cases hset : setF doc name .null with
        | error e1 => rw [hset] at h; simp [bind, Except.bind] at h
        | ok doc1 =>
          rw [hset] at h
          have h2 : mapHierarchyFields doc1 rest fn = .ok doc2 := h
          rw [ih doc1 doc2 fn m h2 hm2, setF_get_other hset hm1]

theorem lookupHier_mem :
    ∀ (t : List (String × List (String × FieldKind))) (c : String)
      (l : List (String × FieldKind)),
      lookupHier t c = some l → ∃ k, (k, l) ∈ t := by
  intro t
  induction t with
  | nil => intro c l h; simp [lookupHier] at h
  | cons e rest ih =>
    intro c l h
    obtain ⟨k, v⟩ := e
    by_cases hk : k = c
    · subst hk
      simp [lookupHier] at h
      exact ⟨k, by simp [h]⟩
    · simp [lookupHier, hk] at h
      obtain ⟨k2, hk2⟩ := ih c l h
      exact ⟨k2, by simp [hk2]⟩

/-- The embedded-field names declared for any collection are distinct (they
are literal keys of the `HIERARCHY` table). -/
theorem hierFields_names_nodup (c : String) : ((hierFields c).map Prod.fst).Nodup := by
  unfold hierFields
  cases h : lookupHier HIERARCHY c with
  | none => simp
  | some l =>
    obtain ⟨k, hk⟩ := lookupHier_mem HIERARCHY c l h
    have hall : ∀ e ∈ HIERARCHY, ((e.2).map Prod.fst).Nodup := by decide
    exact hall (k, l) hk

/-- One step of `mapHierarchyFields`: the produced document differs from the
input only at the head entry's field. -/
theorem mapHFields_cons_step {doc doc2 : Val} {n0 : String} {k0 : FieldKind}
    {rest : List (String × FieldKind)} {fn : Val → String → Except JsErr Val}
    (h : mapHierarchyFields doc ((n0, k0) :: rest) fn = .ok doc2) :
    ∃ doc1, mapHierarchyFields doc1 rest fn = .ok doc2 ∧
      ∀ m, m ≠ n0 → getField doc1 m = getField doc m := by
  cases k0 with
  | coll =>
    cases hget : getField doc n0
    case arr xs =>
      simp only [mapHierarchyFields, hget] at h
      cases hmap : xs.mapM (fun e => fn e n0) with
      | error e1 => rw [hmap] at h; simp [bind, Except.bind] at h
      | ok ys =>
        rw [hmap] at h
        simp only [bind, Except.bind] at h
        cases hset : setF doc n0 (.arr ys) with
        | error e1 => rw [hset] at h; simp at h
        | ok doc1 =>
          rw [hset] at h
          exact ⟨doc1, h, fun m hm => setF_get_other hset hm⟩
    all_goals
      simp only [mapHierarchyFields, hget] at h
    all_goals
      cases hset : setF doc n0 (.arr []) with
      | error e1 => rw [hset] at h; simp [bind, Except.bind] at h
      | ok doc1 =>
        rw [hset] at h
        have h2 : mapHierarchyFields doc1 rest fn = .ok doc2 := h
        exact ⟨doc1, h2, fun m hm => setF_get_other hset hm⟩
  | single =>
    by_cases ht : truthy (getField doc n0) = true
    · simp only [mapHierarchyFields, if_pos ht] at h
      cases hfn : fn (getField doc n0) n0 with
      | error e1 => rw [hfn] at h; simp [bind, Except.bind] at h
      | ok y =>
        rw [hfn] at h
        simp only [bind, Except.bind] at h
        cases hset : setF doc n0 y with
        | error e1 => rw [hset] at h; simp at h
        | ok doc1 =>
          rw [hset] at h
          have h2 : mapHierarchyFields doc1 rest fn = .ok doc2 := h
          exact ⟨doc1, h2, fun m hm => setF_get_other hset hm⟩
    · simp only [mapHierarchyFields, if_neg ht] at h
      cases hset : setF doc n0 .null with
      | error e1 => rw [hset] at h; simp [bind, Except.bind] at h
      | ok doc1 =>
        rw [hset] at h
        have h2 : mapHierarchyFields doc1 rest fn = .ok doc2 := h
        exact ⟨doc1, h2, fun m hm => setF_get_other hset hm⟩

/-- Head entry, collection-valued: the emitted field is an array, the empty
array when the source field was not one. -/
theorem mapHFields_head_coll {doc doc2 : Val} {name : String}
    {rest : List (String × FieldKind)} {fn : Val → String → Except JsErr Val}
    (h : mapHierarchyFields doc ((name, .coll) :: rest) fn = .ok doc2)
    (hn0 : name ∉ rest.map Prod.fst) :
    (∃ xs, getField doc2 name = .arr xs) ∧
      (isArr (getField doc name) = false → getField doc2 name = .arr []) := by
  cases hget : getField doc name
  case arr xs =>
    simp only [mapHierarchyFields, hget] at h
    cases hmap : xs.mapM (fun e => fn e name) with
    | error e1 => rw [hmap] at h; simp [bind, Except.bind] at h
    | ok ys =>
      rw [hmap] at h
      simp only [bind, Except.bind] at h
      cases hset : setF doc name (.arr ys) with
      | error e1 => rw [hset] at h; simp at h
      | ok doc1 =>
        rw [hset] at h
        have h2 : mapHierarchyFields doc1 rest fn = .ok doc2 := h
        have hpres := mapHFields_preserve rest doc1 doc2 fn name h2 hn0
        have hv := setF_get_self hset
        refine ⟨⟨ys, by rw [hpres, hv]⟩, fun hisarr => ?_⟩
        simp [isArr] at hisarr
  all_goals
    simp only [mapHierarchyFields, hget] at h
  all_goals
    cases hset : setF doc name (.arr []) with
    | error e1 => rw [hset] at h; simp [bind, Except.bind] at h
    | ok doc1 =>
      rw [hset] at h
      have h2 : mapHierarchyFields doc1 rest fn = .ok doc2 := h
      have hpres := mapHFields_preserve rest doc1 doc2 fn name h2 hn0
      have hv := setF_get_self hset
      exact ⟨⟨[], by rw [hpres, hv]⟩, fun _ => by rw [hpres, hv]⟩

/-- Head entry, singular with an absent source field: the emitted field is
`null`. -/
theorem mapHFields_head_single {doc doc2 : Val} {name : String}
    {rest : List (String × FieldKind)} {fn : Val → String → Except JsErr Val}
    (h : mapHierarchyFields doc ((name, .single) :: rest) fn = .ok doc2)
    (hn0 : name ∉ rest.map Prod.fst)
    (hu : getField doc name = .undefined) :
    getField doc2 name = .null := by
  have ht : ¬ truthy (getField doc name) = true := by rw [hu]; simp [truthy]
  simp only [mapHierarchyFields, if_neg ht] at h
  cases hset : setF doc name .null with
  | error e1 => rw [hset] at h; simp [bind, Except.bind] at h
  | ok doc1 =>
    rw [hset] at h
    have h2 : mapHierarchyFields doc1 rest fn = .ok doc2 := h
    have hpres := mapHFields_preserve rest doc1 doc2 fn name h2 hn0
    rw [hpres, setF_get_self hset]

/-- Per-field behavior of `mapHierarchyFields` on a successful run with
distinct field names: collection-valued fields end up arrays (empty when the
source value was not an array), singular fields end up `null` when the
source value was absent. -/
theorem mapHFields_spec :
    ∀ (entries : List (String × FieldKind)) (doc doc2 : Val)
      (fn : Val → String → Except JsErr Val),
      mapHierarchyFields doc entries fn = .ok doc2 →
      (entries.map Prod.fst).Nodup →
      ∀ name kind, (name, kind) ∈ entries →
        (kind = .coll → (∃ xs, getField doc2 name = .arr xs) ∧
          (isArr (getField doc name) = false → getField doc2 name = .arr [])) ∧
        (kind = .single → getField doc name = .undefined → getField doc2 name = .null) := by
  intro entries
  induction entries with
  | nil =>
    intro doc doc2 fn _ _ name kind hmem
    simp at hmem
  | cons e rest ih =>
    intro doc doc2 fn h hnd name kind hmem
    obtain ⟨n0, k0⟩ := e
    simp only [List.map_cons, List.nodup_cons] at hnd
    obtain ⟨hn0, hndr⟩ := hnd
    rcases List.mem_cons.mp hmem with hhead | htail
    · obtain ⟨he1, he2⟩ := Prod.mk.injEq .. ▸ hhead
      subst he1; subst he2
      cases kind with
      | coll =>
        exact ⟨fun _ => mapHFields_head_coll h hn0, fun hc => FieldKind.noConfusion hc⟩
      | single =>
        exact ⟨fun hc => FieldKind.noConfusion hc, fun _ => mapHFields_head_single h hn0⟩
    · have hne : name ≠ n0 := by
        intro hc
        subst hc
        exact hn0 (List.mem_map.mpr ⟨(name, kind), htail, rfl⟩)
      obtain ⟨doc1, h2, hpres⟩ := mapHFields_cons_step h
      have := ih doc1 doc2 fn h2 hndr name kind htail
      rw [hpres name hne] at this
      exact this

/-- C10.  For every document run through `mapHierarchy` (the compiler's
value mapping with `d => d._id` and the extractor's resolution both do
this), every embedded field the `HIERARCHY` schema declares for the
collection is normalized in the emitted value: a collection-valued field is
always an array — the empty array when the source field is absent or not an
array — and a singular field is `null` when the source field is absent;
missing schema fields are thus never left undefined. -/
theorem c10_mapHierarchy_normalizes
    (doc : Val) (collection : String) (fn : Val → String → Except JsErr Val) (doc2 : Val)
    (h : mapHierarchy doc collection fn = .ok doc2) :
    ∀ name kind, (name, kind) ∈ hierFields collection →
      (kind = .coll → (∃ xs, getField doc2 name = .arr xs) ∧
        (isArr (getField doc name) = false → getField doc2 name = .arr [])) ∧
      (kind = .single → getField doc name = .undefined → getField doc2 name = .null) :=
  mapHFields_spec (hierFields collection) doc doc2 fn h (hierFields_names_nodup collection)

/-- Witness for C10 at a concrete input: an actor document with no `items`,
`effects` fields gets both normalized to `[]`, and a token document with no
`delta` gets `null`. -/
theorem c10_mapHierarchy_normalizes_witness :
    (("items", FieldKind.coll) ∈ hierFields "actors" ∧
      getField (.obj [("_id", .str "x"), ("items", .arr []), ("effects", .arr [])]) "items" = .arr []) ∧
    (("delta", FieldKind.single) ∈ hierFields "tokens" ∧
      getField (.obj [("_id", .str "t"), ("delta", .null)]) "delta" = .null) := by
  refine ⟨⟨by decide, ?_⟩, ⟨by decide, ?_⟩⟩
  · have h := c10_mapHierarchy_normalizes (.obj [("_id", .str "x")]) "actors"
      (fun d _ => getProp d "_id") (.obj [("_id", .str "x"), ("items", .arr []), ("effects", .arr [])])
      rfl "items" .coll (by decide)
    have h2 := (h.1 rfl).2 (by decide)
    exact h2
  · have h := c10_mapHierarchy_normalizes (.obj [("_id", .str "t")]) "tokens"
      (fun d _ => getProp d "_id") (.obj [("_id", .str "t"), ("delta", .null)])
      rfl "delta" .single (by decide)
    exact h.2 rfl rfl

/-- Witness for C7 on concrete ids and names. -/
theorem c7_folder_paths_witness :
    resolveFolderPaths (c7Map "a" "b" "c" .null "A" "B" "C") =
      .ok [(.str "a", ⟨"A", .null, "A"⟩),
           (.str "b", ⟨"B", .str "a", "A" ++ "/" ++ "B"⟩),
           (.str "c", ⟨"C", .str "b", "A" ++ "/" ++ ("B" ++ "/" ++ "C")⟩)] :=
  (c7_folder_paths "a" "b" "c" .null "A" "B" "C" rfl (by decide)
    (by decide) (by decide) (by decide)).1

/-- C8, amended.  A non-empty `transformName` result is the output filename
verbatim, independent of any folder path; the folder-path prefix is applied
exactly in the default-naming branch (`if (!name)`), where a resolvable
non-empty folder path is joined in front of the default-derived name. -/
theorem c8_amended_prefix_only_default
    (s : String) (fp : Option String) (fm : List (Val × ResolvedFolder)) (yaml : Bool)
    (key id : String) (doc : Val) (p base : String)
    (hs : s ≠ "") (hp : p ≠ "")
    (hbase : extractBaseName fm yaml key id doc = .ok base) (hbne : base ≠ "") :
    deriveName (some s) fp fm yaml key id doc = .ok s ∧
    deriveName none (some p) fm yaml key id doc = .ok (p ++ "/" ++ base) := by
  constructor
  · simp [deriveName, hs]
  · simp only [deriveName, deriveNameDefault, hbase, bind, Except.bind]
    rw [if_pos hp, pathJoin, if_neg hp, if_neg hbne]

/-- Witness for the amended C8 at concrete inputs. -/
theorem c8_amended_prefix_only_default_witness :
    deriveName (some "custom.json") (some "F_f1") [] false "!actors!a1" "a1"
      (.obj [("name", .str "H"), ("_id", .str "a1")]) = .ok "custom.json" ∧
    deriveName none (some "F_f1") [] false "!actors!a1" "a1"
      (.obj [("name", .str "H"), ("_id", .str "a1")]) = .ok ("F_f1" ++ "/" ++ "H_a1.json") :=
  c8_amended_prefix_only_default "custom.json" (some "F_f1") [] false "!actors!a1" "a1"
    (.obj [("name", .str "H"), ("_id", .str "a1")]) "F_f1" "H_a1.json"
    (by decide) (by decide) rfl (by decide)

theorem charsLe_refl : ∀ l : List Char, charsLe l l = true := by
  intro l
  induction l with
  | nil => rfl
  | cons c cs ih => simp [charsLe, ih]

theorem strLe_refl (a : String) : strLe a a = true :=
  charsLe_refl a.data

theorem charsLe_total : ∀ a b : List Char, charsLe a b = true ∨ charsLe b a = true := by
  intro a
  induction a with
  | nil => intro b; left; rfl
  | cons c cs ih =>
    intro b
    cases b with
    | nil => right; rfl
    | cons d ds =>
      by_cases h1 : c.toNat < d.toNat
      · left; simp [charsLe, h1]
      · by_cases h2 : c.toNat = d.toNat
        · rcases ih ds with h3 | h3
          · left; simp [charsLe, h1, h2, h3]
          · right
            simp only [charsLe]
            rw [if_neg (by omega : ¬ d.toNat < c.toNat), if_pos (by omega : d.toNat = c.toNat)]
            exact h3
        · right
          have h3 : d.toNat < c.toNat := by omega
          simp [charsLe, h3]

theorem strLe_total (a b : String) : strLe a b = true ∨ strLe b a = true :=
  charsLe_total a.data b.data

theorem charsLe_trans : ∀ a b c : List Char,
    charsLe a b = true → charsLe b c = true → charsLe a c = true := by
  intro a
  induction a with
  | nil => intro b c _ _; rfl
  | cons x xs ih =>
    intro b c hab hbc
    cases b with
    | nil => simp [charsLe] at hab
    | cons y ys =>
      cases c with
      | nil => simp [charsLe] at hbc
      | cons z zs =>
        simp only [charsLe] at hab hbc ⊢
        by_cases h1 : x.toNat < y.toNat
        · by_cases h2 : y.toNat < z.toNat
          · simp [show x.toNat < z.toNat by omega]
          · by_cases h3 : y.toNat = z.toNat
            · simp [show x.toNat < z.toNat by omega]
            · rw [if_neg h2, if_neg h3] at hbc
              exact absurd hbc (by simp)
        · by_cases h4 : x.toNat = y.toNat
          · rw [if_neg h1, if_pos h4] at hab
            by_cases h2 : y.toNat < z.toNat
            · simp [show x.toNat < z.toNat by omega]
            · by_cases h3 : y.toNat = z.toNat
              · rw [if_neg h2, if_pos h3] at hbc
                rw [if_neg (by omega : ¬ x.toNat < z.toNat),
                  if_pos (by omega : x.toNat = z.toNat)]
                exact ih ys zs hab hbc
              · rw [if_neg h2, if_neg h3] at hbc
                exact absurd hbc (by simp)
          · rw [if_neg h1, if_neg h4] at hab
            exact absurd hab (by simp)

theorem strLe_trans {a b c : String} (h1 : strLe a b = true) (h2 : strLe b c = true) :
    strLe a c = true :=
  charsLe_trans a.data b.data c.data h1 h2

theorem insertEntry_perm (x : String × Val) :
    ∀ l : List (String × Val), (insertEntry x l).Perm (x :: l) := by
  intro l
  induction l with
  | nil => simp [insertEntry]
  | cons y ys ih =>
    by_cases h : strLe x.1 y.1 = true
    · simp [insertEntry, h]
    · simp only [insertEntry, if_neg h]
      exact (ih.cons y).trans (List.Perm.swap x y ys)

theorem sortEntries_perm : ∀ l : List (String × Val), (sortEntries l).Perm l := by
  intro l
  induction l with
  | nil => simp [sortEntries]
  | cons x xs ih =>
    exact (insertEntry_perm x (sortEntries xs)).trans (ih.cons x)

/-- Entries ordered by their keys. -/
def entryLe (a b : String × Val) : Prop := strLe a.1 b.1 = true

theorem insertEntry_pairwise (x : String × Val) :
    ∀ l : List (String × Val), List.Pairwise entryLe l →
      List.Pairwise entryLe (insertEntry x l) := by
  intro l
  induction l with
  | nil => intro _; simp [insertEntry, List.pairwise_cons]
  | cons y ys ih =>
    intro hp
    rw [List.pairwise_cons] at hp
    obtain ⟨hy, hys⟩ := hp
    by_cases h : strLe x.1 y.1 = true
    · simp only [insertEntry, if_pos h]
      rw [List.pairwise_cons]
      constructor
      · intro z hz
        rcases List.mem_cons.mp hz with hz1 | hz1
        · subst hz1; exact h
        · exact strLe_trans h (hy z hz1)
      · rw [List.pairwise_cons]
        exact ⟨hy, hys⟩
    · simp only [insertEntry, if_neg h]
      rw [List.pairwise_cons]
      constructor
      · intro z hz
        have hz2 : z ∈ x :: ys := (insertEntry_perm x ys).mem_iff.mp hz
        rcases List.mem_cons.mp hz2 with hz1 | hz1
        · rw [hz1]
          rcases strLe_total x.1 y.1 with h2 | h2
          · exact absurd h2 h
          · exact h2
        · exact hy z hz1
      · exact ih hys

theorem sortEntries_pairwise : ∀ l : List (String × Val),
    List.Pairwise entryLe (sortEntries l) := by
  intro l
  induction l with
  | nil => simp [sortEntries]
  | cons x xs ih => exact insertEntry_pairwise x _ ih

theorem pairwise_head_le {e : String × Val} {l : List (String × Val)}
    (hp : List.Pairwise entryLe (e :: l)) :
    ∀ x ∈ e :: l, strLe e.1 x.1 = true := by
  intro x hx
  rcases List.mem_cons.mp hx with h1 | h1
  · subst h1; exact strLe_refl x.1
  · exact (List.pairwise_cons.mp hp).1 x h1

theorem getLast?_mem_entries :
    ∀ (l : List (String × Val)) (m : String × Val), l.getLast? = some m → m ∈ l := by
  intro l
  induction l with
  | nil => intro m h; simp at h
  | cons x xs ih =>
    intro m h
    cases xs with
    | nil => simp at h; simp [h]
    | cons y ys =>
      rw [List.getLast?_cons_cons] at h
      exact List.mem_cons_of_mem x (ih m h)

theorem pairwise_le_getLast :
    ∀ (l : List (String × Val)) (m : String × Val), List.Pairwise entryLe l →
      l.getLast? = some m → ∀ x ∈ l, strLe x.1 m.1 = true := by
  intro l
  induction l with
  | nil => intro m _ h; simp at h
  | cons e es ih =>
    intro m hp hlast x hx
    cases es with
    | nil =>
      simp at hlast
      simp at hx
      subst hlast; subst hx
      exact strLe_refl _
    | cons y ys =>
      rw [List.getLast?_cons_cons] at hlast
      rcases List.mem_cons.mp hx with h1 | h1
      · subst h1
        have hm : m ∈ y :: ys := getLast?_mem_entries _ m hlast
        exact (List.pairwise_cons.mp hp).1 m hm
      · exact ih m (List.pairwise_cons.mp hp).2 hlast x h1

theorem compileClassicLevel_ok_span {te : Option TransformEntry} {st : Store}
    {files : List Val} {st2 : Store} {span : Option (String × String)}
    (h : compileClassicLevel te st files = .ok (st2, span)) :
    span = compactClassicLevel st2 := by
  simp only [compileClassicLevel] at h
  cases hp : processFiles te initComp files with
  | error e => rw [hp] at h; simp [bind, Except.bind] at h
  | ok s =>
    rw [hp] at h
    simp only [bind, Except.bind, Except.ok.injEq, Prod.mk.injEq] at h
    obtain ⟨h1, h2⟩ := h
    rw [← h1, ← h2]

/-- C9, amended.  On a successful compile run the returned compaction request
is exactly the one of `compactClassicLevel` on the final store: none for an
empty store, and the lexicographically first and last keys of the store
whenever no empty-string key is involved. -/
theorem c9_amended_compaction_span (te : Option TransformEntry) (st : Store)
    (files : List Val) (st2 : Store) (span : Option (String × String))
    (h : compileClassicLevel te st files = .ok (st2, span)) :
    (st2 = [] → span = none) ∧
    ((∀ e ∈ st2, e.1 ≠ "") → st2 ≠ [] →
      ∃ fk lk, span = some (fk, lk) ∧ (∃ v, (fk, v) ∈ st2) ∧ (∃ v, (lk, v) ∈ st2) ∧
        ∀ e ∈ st2, strLe fk e.1 = true ∧ strLe e.1 lk = true) := by
  have hspan := compileClassicLevel_ok_span h
  subst hspan
  constructor
  · intro h0; subst h0; rfl
  · intro hne hnn
    have hperm := sortEntries_perm st2
    have hsne : sortEntries st2 ≠ [] := by
      intro hc
      apply hnn
      have hl := hperm.length_eq
      rw [hc] at hl
      exact List.length_eq_zero.mp hl.symm
    obtain ⟨e0, er, hE⟩ := List.exists_cons_of_ne_nil hsne
    have hpw : List.Pairwise entryLe (e0 :: er) := hE ▸ sortEntries_pairwise st2
    have hpermE : (e0 :: er).Perm st2 := hE ▸ hperm
    obtain ⟨m, hm⟩ : ∃ m, (e0 :: er).getLast? = some m := by
      cases hg : (e0 :: er).getLast? with
      | none => simp at hg
      | some m => exact ⟨m, rfl⟩
    have hmmem : m ∈ e0 :: er := getLast?_mem_entries _ m hm
    have he0st : e0 ∈ st2 := hpermE.mem_iff.mp (List.mem_cons_self e0 er)
    have hmst : m ∈ st2 := hpermE.mem_iff.mp hmmem
    have he0ne : e0.1 ≠ "" := hne e0 he0st
    have hmne : m.1 ≠ "" := hne m hmst
    have hcompact : compactClassicLevel st2 = some (e0.1, m.1) := by
      simp only [compactClassicLevel, hE, List.map_cons, List.head?_cons]
      rw [show (e0.1 :: List.map (fun e => e.1) er).getLast? = some m.1 by
        rw [← List.map_cons, List.getLast?_map, hm]; rfl]
      simp [he0ne, hmne]
    refine ⟨e0.1, m.1, hcompact, ⟨e0.2, by simpa using he0st⟩, ⟨m.2, by simpa using hmst⟩, ?_⟩
    intro e he
    have heE : e ∈ e0 :: er := hpermE.mem_iff.mpr he
    exact ⟨pairwise_head_le hpw e heE, pairwise_le_getLast _ m hpw hm e heE⟩

/-- Witness for the amended C9 at a concrete run: compiling one file with
key `!a!1` into an empty store yields the span `(!a!1, !a!1)`. -/
theorem c9_amended_compaction_span_witness :
    ∃ fk lk, (some (("!a!1" : String), ("!a!1" : String)) : Option (String × String)) = some (fk, lk) ∧
      (∃ v, (fk, v) ∈ ([("!a!1", Val.obj [("_id", Val.str "1")])] : Store)) ∧
      (∃ v, (lk, v) ∈ ([("!a!1", Val.obj [("_id", Val.str "1")])] : Store)) ∧
      ∀ e ∈ ([("!a!1", Val.obj [("_id", Val.str "1")])] : Store),
        strLe fk e.1 = true ∧ strLe e.1 lk = true := by
  have h := c9_amended_compaction_span none []
    [Val.obj [("_key", .str "!a!1"), ("_id", .str "1")]]
    [("!a!1", Val.obj [("_id", Val.str "1")])]
    (some ("!a!1", "!a!1")) rfl
  refine h.2 ?_ ?_
  · intro e he
    simp at he
    subst he
    decide
  · intro hc
    exact List.noConfusion hc

/-- A composite key whose collection segment has more than one dot-joined
segment (an embedded-node key). -/
def isEmbeddedKey (k : String) : Bool :=
  match (jsSplit '!' k).get? 1 with
  | some c => strHasChar c '.'
  | none => false

/-- An embedded-node key is skipped by the extractor's per-entry body before
any other work: the `continue` fires right after decomposing the key. -/
theorem extractEntry_embedded_skip (st : Store) (fm : List (Val × ResolvedFolder))
    (opts : ExtractOpts) (fuel : Nat) (dest : String) (k : String) (d : Val)
    (hk : isEmbeddedKey k = true) :
    extractEntry st fm opts fuel dest k d = .ok none := by
  unfold isEmbeddedKey at hk
  cases hg : (jsSplit '!' k).get? 1 with
  | none => rw [hg] at hk; simp at hk
  | some c =>
    rw [hg] at hk
    simp at hk
    simp only [extractEntry, hg]
    simp [bind, Except.bind, pure, Except.pure, hk]

/-- C4.  The extractor's main loop is unchanged when the iterated entries are
restricted to primary keys: every entry whose collection path has more than
one segment is skipped entirely, so extraction never emits an output file
(nor an error, nor any unpacking work) for an embedded key. -/
theorem c4_extract_skips_embedded_keys (st : Store) (fm : List (Val × ResolvedFolder))
    (opts : ExtractOpts) (fuel : Nat) (dest : String) :
    ∀ entries : List (String × Val),
      extractLoop st fm opts fuel dest entries =
        extractLoop st fm opts fuel dest
          (entries.filter (fun e => !(isEmbeddedKey e.1))) := by
  intro entries
  induction entries with
  | nil => rfl
  | cons e rest ih =>
    obtain ⟨k, d⟩ := e
    by_cases hk : isEmbeddedKey k = true
    · have hskip := extractEntry_embedded_skip st fm opts fuel dest k d hk
      simp only [extractLoop, hskip, List.filter_cons, hk, Bool.not_true, ite_false]
      exact ih
    · have hk2 : isEmbeddedKey k = false := by
        cases h2 : isEmbeddedKey k
        · rfl
        · exact absurd h2 hk
      simp only [extractLoop, List.filter_cons, hk2, Bool.not_false, ite_true]
      cases hE : extractEntry st fm opts fuel dest k d with
      | error e0 => rfl
      | ok w =>
        cases w with
        | none => exact ih
        | some w0 => rw [ih]

theorem batchWrite_append (st : Store) (a b : List BatchOp) :
    batchWrite st (a ++ b) = batchWrite (batchWrite st a) b :=
  List.foldl_append applyOp st a b

theorem lookupStr_filter_self (st : Store) (k : String) :
    lookupStr (st.filter (fun e => e.1 ≠ k)) k = none := by
  induction st with
  | nil => rfl
  | cons e st ih =>
    by_cases h : e.1 = k
    · have hd : (decide (e.1 ≠ k)) = false := by simp [h]
      simp only [List.filter_cons, hd, ite_false, Bool.false_eq_true]
      exact ih
    · have hd : (decide (e.1 ≠ k)) = true := by simp [h]
      simp only [List.filter_cons, hd, ite_true]
      simp only [lookupStr, if_neg h]
      exact ih

theorem lookupStr_filter_none (st : Store) (k : String) (p : String × Val → Bool)
    (h : lookupStr st k = none) : lookupStr (st.filter p) k = none := by
  induction st with
  | nil => rfl
  | cons e st ih =>
    simp only [lookupStr] at h
    by_cases hek : e.1 = k
    · rw [if_pos hek] at h
      exact absurd h (by simp)
    · rw [if_neg hek] at h
      simp only [List.filter_cons]
      cases hp : p e
      · exact ih h
      · simp only [lookupStr, if_neg hek]
        exact ih h

theorem applyOp_del_lookup (st : Store) (k : String) :
    lookupStr (applyOp st (.del k)) k = none :=
  lookupStr_filter_self st k

theorem applyOp_del_lookup_none (st : Store) (k k2 : String)
    (h : lookupStr st k = none) : lookupStr (applyOp st (.del k2)) k = none :=
  lookupStr_filter_none st k _ h

/-- Once a delete for `k` is staged, applying the remaining deletes keeps the
key absent: the suffix of the batch behind the puts consists of deletes
only. -/
theorem batchWrite_dels_lookup (k : String) :
    ∀ (dels : List BatchOp) (st : Store),
      (∀ op ∈ dels, ∃ k2, op = BatchOp.del k2) →
      BatchOp.del k ∈ dels →
      lookupStr (batchWrite st dels) k = none := by
  intro dels
  induction dels with
  | nil => intro st _ hmem; simp at hmem
  | cons op rest ih =>
    intro st hall hmem
    rcases List.mem_cons.mp hmem with h1 | h1
    · subst h1
      have hpersist : ∀ (rest2 : List BatchOp) (st2 : Store),
          (∀ op ∈ rest2, ∃ k2, op = BatchOp.del k2) →
          lookupStr st2 k = none →
          lookupStr (batchWrite st2 rest2) k = none := by
        intro rest2
        induction rest2 with
        | nil => intro st2 _ h0; exact h0
        | cons op2 rest3 ih2 =>
          intro st2 hall2 h0
          obtain ⟨k2, hk2⟩ := hall2 op2 (List.mem_cons_self op2 rest3)
          subst hk2
          exact ih2 (applyOp st2 (.del k2))
            (fun op3 hop3 => hall2 op3 (List.mem_cons_of_mem _ hop3))
            (applyOp_del_lookup_none st2 k k2 h0)
      exact hpersist rest (applyOp st (.del k))
        (fun op2 hop2 => hall op2 (List.mem_cons_of_mem _ hop2))
        (applyOp_del_lookup st k)
    · exact ih (applyOp st op) (fun op2 hop2 => hall op2 (List.mem_cons_of_mem _ hop2)) h1

/-- C3.  Every key present in the destination store that the run's seen-set
does not contain is staged for deletion in the stale-deletion pass of the
same batch, and the batch write leaves the final store without it (the
deletes are staged after the puts, so they win even over a staged put of the
same key). -/
theorem c3_stale_keys_deleted (te : Option TransformEntry) (st : Store) (files : List Val)
    (s : CompState) (hp : processFiles te initComp files = .ok s)
    (k : String) (hkst : k ∈ st.map (fun e => e.1))
    (hseen : memVal (.str k) s.seen = false) :
    BatchOp.del k ∈ compileStaleDels st s ∧
    ∃ st2 span, compileClassicLevel te st files = .ok (st2, span) ∧
      lookupStr st2 k = none := by
  have hksort : k ∈ (sortEntries st).map (fun e => e.1) := by
    have hpm : ((sortEntries st).map (fun e => e.1)).Perm (st.map (fun e => e.1)) :=
      (sortEntries_perm st).map _
    exact hpm.mem_iff.mpr hkst
  have hdel : BatchOp.del k ∈ compileStaleDels st s := by
    unfold compileStaleDels
    apply List.mem_map.mpr
    refine ⟨k, ?_, rfl⟩
    apply List.mem_filter.mpr
    refine ⟨hksort, ?_⟩
    simp [hseen]
  refine ⟨hdel, ?_⟩
  refine ⟨batchWrite st (s.ops ++ compileStaleDels st s),
    compactClassicLevel (batchWrite st (s.ops ++ compileStaleDels st s)), ?_, ?_⟩
  · simp only [compileClassicLevel, hp, bind, Except.bind]
  · rw [batchWrite_append]
    apply batchWrite_dels_lookup k (compileStaleDels st s) _ _ hdel
    intro op hop
    obtain ⟨k2, _, hk2⟩ := List.mem_map.mp hop
    exact ⟨k2, hk2.symm⟩

/-- Witness for C3: re-compiling an empty source set over a store holding the
key `!a!old` stages its deletion and removes it. -/
theorem c3_stale_keys_deleted_witness :
    BatchOp.del "!a!old" ∈ compileStaleDels [("!a!old", Val.obj [])] ⟨[], []⟩ ∧
    ∃ st2 span,
      compileClassicLevel none [("!a!old", Val.obj [])] [] = .ok (st2, span) ∧
      lookupStr st2 "!a!old" = none :=
  c3_stale_keys_deleted none [("!a!old", Val.obj [])] [] ⟨[], []⟩ rfl
    "!a!old" (by simp) rfl

theorem applyHierarchyList_state {σ : Type}
    (walk : σ → Val → String → Val → Except JsErr (σ × Val))
    (P : σ → σ → Prop) (htrans : ∀ a b c, P a b → P b c → P a c)
    (hrefl : ∀ a, P a a)
    (hwalk : ∀ s d c o r, walk s d c o = .ok r → P s r.1) :
    ∀ (xs : List Val) (s : σ) (c : String) (o : Val) (r : σ × List Val),
      applyHierarchyList walk s xs c o = .ok r → P s r.1 := by
  intro xs
  induction xs with
  | nil =>
    intro s c o r h
    simp only [applyHierarchyList, Except.ok.injEq] at h
    rw [← h]
    exact hrefl s
  | cons x rest ih =>
    intro s c o r h
    simp only [applyHierarchyList] at h
    cases h1 : walk s x c o with
    | error e => rw [h1] at h; simp [bind, Except.bind] at h
    | ok r1 =>
      rw [h1] at h
      simp only [bind, Except.bind] at h
      cases h2 : applyHierarchyList walk r1.1 rest c o with
      | error e => rw [h2] at h; simp at h
      | ok r2 =>
        rw [h2] at h
        simp only [Except.ok.injEq] at h
        have hp1 := hwalk s x c o r1 h1
        have hp2 := ih r1.1 c o r2 h2
        rw [← h]
        exact htrans _ _ _ hp1 hp2

theorem applyHierarchyFields_state {σ : Type}
    (walk : σ → Val → String → Val → Except JsErr (σ × Val))
    (P : σ → σ → Prop) (htrans : ∀ a b c, P a b → P b c → P a c)
    (hrefl : ∀ a, P a a)
    (hwalk : ∀ s d c o r, walk s d c o = .ok r → P s r.1) :
    ∀ (entries : List (String × FieldKind)) (s : σ) (doc : Val) (o : Val) (r : σ × Val),
      applyHierarchyFields walk s doc entries o = .ok r → P s r.1 := by
  intro entries
  induction entries with
  | nil =>
    intro s doc o r h
    simp only [applyHierarchyFields, Except.ok.injEq] at h
    rw [← h]
    exact hrefl s
  | cons e rest ih =>
    intro s doc o r h
    obtain ⟨name, kind⟩ := e
    simp only [applyHierarchyFields] at h
    split at h
    · rename_i xs heq
      cases h1 : applyHierarchyList walk s xs name o with
      | error e0 => rw [h1] at h; simp [bind, Except.bind] at h
      | ok r1 =>
        rw [h1] at h
        simp only [bind, Except.bind] at h
        exact htrans _ _ _
          (applyHierarchyList_state walk P htrans hrefl hwalk xs s name o r1 h1)
          (ih _ _ _ _ h)
    · split at h
      · cases h1 : walk s (getField doc name) name o with
        | error e0 => rw [h1] at h; simp [bind, Except.bind] at h
        | ok r1 =>
          rw [h1] at h
          simp only [bind, Except.bind] at h
          exact htrans _ _ _ (hwalk _ _ _ _ _ h1) (ih _ _ _ _ h)
      · exact ih _ _ _ _ h

theorem applyHierarchy_state {σ : Type} (fn : Visitor σ)
    (P : σ → σ → Prop) (htrans : ∀ a b c, P a b → P b c → P a c)
    (hrefl : ∀ a, P a a)
    (hfn : ∀ s d c o r, fn s d c o = .ok r → P s r.1) :
    ∀ (fuel : Nat) (s : σ) (d : Val) (c : String) (o : Val) (r : σ × Val),
      applyHierarchy fn fuel s d c o = .ok r → P s r.1 := by
  intro fuel
  induction fuel with
  | zero => intro s d c o r h; simp [applyHierarchy] at h
  | succ n ih =>
    intro s d c o r h
    simp only [applyHierarchy] at h
    cases h1 : fn s d c o with
    | error e0 => rw [h1] at h; simp [bind, Except.bind] at h
    | ok r1 =>
      rw [h1] at h
      simp only [bind, Except.bind] at h
      exact htrans _ _ _ (hfn _ _ _ _ _ h1)
        (applyHierarchyFields_state (applyHierarchy fn n) P htrans hrefl
          (fun s2 d2 c2 o2 r2 h2 => ih s2 d2 c2 o2 r2 h2) _ _ _ _ _ h)

theorem packVisitor_seen (s : CompState) (d : Val) (c : String) (o : Val)
    (r : CompState × Val × Val) (h : packVisitor s d c o = .ok r) :
    ∀ x, memVal x s.seen = true → memVal x r.1.seen = true := by
  simp only [packVisitor] at h
  cases h1 : getProp d "_key" with
  | error e0 => rw [h1] at h; simp [bind, Except.bind] at h
  | ok keyV =>
    rw [h1] at h
    simp only [bind, Except.bind] at h
    cases h2 : delF d "_key" with
    | error e0 => simp only [h2] at h; simp at h
    | ok d2 =>
      simp only [h2] at h
      by_cases h3 : memVal keyV s.seen = true
      · rw [if_pos h3] at h; simp at h
      · rw [if_neg h3] at h
        cases h4 : mapHierarchy d2 c (fun d _ => getProp d "_id") with
        | error e0 => simp only [h4] at h; simp [bind, Except.bind] at h
        | ok value =>
          simp only [h4] at h
          cases h5 : toPutKey keyV with
          | error e0 => simp only [h5] at h; simp at h
          | ok kk =>
            simp only [h5] at h
            simp only [Except.ok.injEq] at h
            rw [← h]
            intro x hx
            simp [memVal, hx]

theorem packVisitor_adds (s : CompState) (d : Val) (c : String) (o : Val)
    (r : CompState × Val × Val) (k : String) (h : packVisitor s d c o = .ok r)
    (hk : getField d "_key" = .str k) :
    memVal (.str k) r.1.seen = true := by
  have hobj : getProp d "_key" = .ok (.str k) := by
    cases d <;> simp [getField] at hk <;> simp [getProp, getField, hk]
  simp only [packVisitor, hobj, bind, Except.bind] at h
  cases h2 : delF d "_key" with
  | error e0 => simp only [h2] at h; simp at h
  | ok d2 =>
    simp only [h2] at h
    by_cases h3 : memVal (Val.str k) s.seen = true
    · rw [if_pos h3] at h; simp at h
    · rw [if_neg h3] at h
      cases h4 : mapHierarchy d2 c (fun d _ => getProp d "_id") with
      | error e0 => simp only [h4] at h; simp [bind, Except.bind] at h
      | ok value =>
        simp only [h4] at h
        cases h5 : toPutKey (.str k) with
        | error e0 => simp only [h5] at h; simp at h
        | ok kk =>
          simp only [h5] at h
          simp only [Except.ok.injEq] at h
          rw [← h]
          simp [memVal, Val.beq]

theorem packDoc_seen_mono (fuel : Nat) (s : CompState) (doc : Val) (c : String)
    (s2 : CompState) (h : packDoc fuel s doc c = .ok s2) :
    ∀ x, memVal x s.seen = true → memVal x s2.seen = true := by
  simp only [packDoc, Except.map] at h
  cases h1 : applyHierarchy packVisitor fuel s doc c (Val.obj []) with
  | error e0 => rw [h1] at h; simp at h
  | ok r =>
    rw [h1] at h
    simp only [Except.ok.injEq] at h
    rw [← h]
    exact applyHierarchy_state packVisitor
      (fun s1 s2 => ∀ x, memVal x s1.seen = true → memVal x s2.seen = true)
      (fun a b c hab hbc x hx => hbc x (hab x hx))
      (fun a x hx => hx)
      (fun s1 d1 c1 o1 r1 h1 => packVisitor_seen s1 d1 c1 o1 r1 h1)
      fuel s doc c (Val.obj []) r h1

theorem processFile_seen_mono (s s2 : CompState) (f : Val)
    (h : processFile none s f = .ok s2) :
    ∀ x, memVal x s.seen = true → memVal x s2.seen = true := by
  simp only [processFile] at h
  cases h1 : getProp f "_key" with
  | error e0 => rw [h1] at h; simp [bind, Except.bind] at h
  | ok keyV =>
    simp only [h1, bind, Except.bind] at h
    cases keyV <;> simp at h <;> try exact fun x hx => absurd h (by simp)
    case str ks =>
      exact packDoc_seen_mono _ s f _ s2 h

theorem processFiles_seen_mono :
    ∀ (l : List Val) (s s2 : CompState),
      processFiles none s l = .ok s2 →
      ∀ x, memVal x s.seen = true → memVal x s2.seen = true := by
  intro l
  induction l with
  | nil =>
    intro s s2 h x hx
    simp only [processFiles, Except.ok.injEq] at h
    rw [← h]; exact hx
  | cons f fs ih =>
    intro s s2 h x hx
    simp only [processFiles] at h
    cases h1 : processFile none s f with
    | error e0 => rw [h1] at h; simp [bind, Except.bind] at h
    | ok s1 =>
      rw [h1] at h
      simp only [bind, Except.bind] at h
      exact ih s1 s2 h x (processFile_seen_mono s s1 f h1 x hx)

theorem processFile_adds_root (s s2 : CompState) (f : Val) (k : String)
    (hk : getField f "_key" = .str k) (h : processFile none s f = .ok s2) :
    memVal (.str k) s2.seen = true := by
  have hobj : getProp f "_key" = .ok (.str k) := by
    cases f <;> simp [getField] at hk <;> simp [getProp, getField, hk]
  simp only [processFile, hobj, bind, Except.bind] at h
  simp only [packDoc, Except.map] at h
  cases h1 : applyHierarchy packVisitor (Val.size f + 1) s f
      ((jsSplit '!' k).getD 1 "undefined") (Val.obj []) with
  | error e0 => rw [h1] at h; simp at h
  | ok r =>
    rw [h1] at h
    simp only [Except.ok.injEq] at h
    simp only [applyHierarchy] at h1
    cases h2 : packVisitor s f ((jsSplit '!' k).getD 1 "undefined") (Val.obj []) with
    | error e0 => rw [h2] at h1; simp [bind, Except.bind] at h1
    | ok r1 =>
      rw [h2] at h1
      simp only [bind, Except.bind] at h1
      have hadd := packVisitor_adds s f _ _ r1 k h2 hk
      have hmono := applyHierarchyFields_state (applyHierarchy packVisitor (Val.size f))
        (fun s1 s2 => ∀ x, memVal x s1.seen = true → memVal x s2.seen = true)
        (fun a b c hab hbc x hx => hbc x (hab x hx))
        (fun a x hx => hx)
        (fun s1 d1 c1 o1 r2 hr => applyHierarchy_state packVisitor
          (fun s1 s2 => ∀ x, memVal x s1.seen = true → memVal x s2.seen = true)
          (fun a b c hab hbc x hx => hbc x (hab x hx))
          (fun a x hx => hx)
          (fun s3 d3 c3 o3 r3 h3 => packVisitor_seen s3 d3 c3 o3 r3 h3)
          (Val.size f) s1 d1 c1 o1 r2 hr)
        _ _ _ _ _ h1
    
      rw [← h]
      exact hmono (.str k) hadd

theorem processFiles_mem_seen :
    ∀ (l : List Val) (s s2 : CompState) (g : Val) (k : String),
      processFiles none s l = .ok s2 → g ∈ l → getField g "_key" = .str k →
      memVal (.str k) s2.seen = true := by
  intro l
  induction l with
  | nil => intro s s2 g k _ hg; simp at hg
  | cons f fs ih =>
    intro s s2 g k h hg hk
    simp only [processFiles] at h
    cases h1 : processFile none s f with
    | error e0 => rw [h1] at h; simp [bind, Except.bind] at h
    | ok s1 =>
      rw [h1] at h
      simp only [bind, Except.bind] at h
      rcases List.mem_cons.mp hg with hg1 | hg1
      · subst hg1
        exact processFiles_seen_mono fs s1 s2 h (.str k)
          (processFile_adds_root s s1 g k hk h1)
      · exact ih s1 s2 g k h hg1 hk

theorem processFile_dup (s : CompState) (f : Val) (k : String)
    (hk : getField f "_key" = .str k) (hm : memVal (.str k) s.seen = true) :
    processFile none s f = .error (.dupKey (.str k)) := by
  have hobj : getProp f "_key" = .ok (.str k) := by
    cases f <;> simp [getField] at hk <;> simp [getProp, getField, hk]
  simp only [processFile, hobj, bind, Except.bind]
  simp only [packDoc, applyHierarchy, Except.map]
  simp only [packVisitor, hobj, bind, Except.bind]
  cases h2 : delF f "_key" with
  | error e0 =>
    exfalso
    cases f <;> simp [getField] at hk <;> simp [delF] at h2
  | ok d2 =>
    simp only [h2]
    rw [if_pos hm]

theorem processFiles_append (te : Option TransformEntry) :
    ∀ (l1 l2 : List Val) (s : CompState),
      processFiles te s (l1 ++ l2) =
        (processFiles te s l1).bind (fun s1 => processFiles te s1 l2) := by
  intro l1
  induction l1 with
  | nil =>
    intro l2 s
    simp [processFiles, Except.bind]
  | cons f fs ih =>
    intro l2 s
    simp only [List.cons_append, processFiles]
    cases h1 : processFile te s f with
    | error e0 => simp [bind, Except.bind, Except.bind]
    | ok s1 =>
      simp only [bind, Except.bind]
      exact ih l2 s1

/-- C1.  If an earlier source file of the run resolved to composite key `k`
(and the files up to it packed without error), then a later file with the
same key aborts the whole compile run with the duplicate-key error naming
`k`, and the store is unchanged, the batch never having been written. -/
theorem c1_duplicate_key_fails (st : Store) (pre rest : List Val) (f g : Val)
    (k : String) (s1 : CompState)
    (hpre : processFiles none initComp pre = .ok s1)
    (hg : g ∈ pre) (hgk : getField g "_key" = .str k)
    (hfk : getField f "_key" = .str k) :
    compileClassicLevel none st (pre ++ f :: rest) = .error (.dupKey (.str k)) ∧
    storeAfterCompile none st (pre ++ f :: rest) = st := by
  have hseen : memVal (.str k) s1.seen = true :=
    processFiles_mem_seen pre initComp s1 g k hpre hg hgk
  have hdup := processFile_dup s1 f k hfk hseen
  have hrun : processFiles none initComp (pre ++ f :: rest) = .error (.dupKey (.str k)) := by
    rw [processFiles_append none pre (f :: rest) initComp, hpre]
    simp only [Except.bind, processFiles, hdup, bind]
  have hfail : compileClassicLevel none st (pre ++ f :: rest) = .error (.dupKey (.str k)) := by
    simp only [compileClassicLevel, hrun, bind, Except.bind]
  refine ⟨hfail, ?_⟩
  simp only [storeAfterCompile, hfail]

/-- Witness for C1: two files with key `!a!1` in one run. -/
theorem c1_duplicate_key_fails_witness :
    compileClassicLevel none []
      [Val.obj [("_key", .str "!a!1"), ("_id", .str "1")],
       Val.obj [("_key", .str "!a!1"), ("_id", .str "2")]] =
      .error (.dupKey (.str "!a!1")) ∧
    storeAfterCompile none []
      [Val.obj [("_key", .str "!a!1"), ("_id", .str "1")],
       Val.obj [("_key", .str "!a!1"), ("_id", .str "2")]] = [] :=
  c1_duplicate_key_fails [] [Val.obj [("_key", .str "!a!1"), ("_id", .str "1")]] []
    (Val.obj [("_key", .str "!a!1"), ("_id", .str "2")])
    (Val.obj [("_key", .str "!a!1"), ("_id", .str "1")])
    "!a!1"
    ⟨[.str "!a!1"], [.put "!a!1" (.obj [("_id", .str "1")])]⟩
    rfl (by simp) rfl rfl

theorem setInFields_self {fs : List (String × Val)} {name : String} {v : Val}
    (h : lookupField fs name = some v) : setInFields fs name v = fs := by
  induction fs with
  | nil => simp [lookupField] at h
  | cons e rest ih =>
    obtain ⟨k, w⟩ := e
    by_cases hk : k = name
    · subst hk
      simp [lookupField] at h
      simp [setInFields, h]
    · simp only [lookupField, if_neg hk] at h
      simp [setInFields, hk, ih h]

theorem setWB_self {doc : Val} {name : String} {v : Val}
    (hget : getField doc name = v) (hne : v ≠ .undefined) : setWB doc name v = doc := by
  cases doc <;> simp [getField] at hget <;> try exact absurd hget.symm hne
  case obj fs =>
    cases hl : lookupField fs name with
    | none => rw [hl] at hget; simp at hget; exact absurd hget.symm hne
    | some w =>
      rw [hl] at hget
      simp at hget
      subst hget
      simp [setWB, setInFields_self hl]

theorem hierWFList_mem {name : String} :
    ∀ {xs : List Val}, hierWFList xs name = true → ∀ x ∈ xs, hierWF x name = true := by
  intro xs h x hx
  induction xs with
  | nil => simp at hx
  | cons y ys ih =>
    rw [hierWFList] at h
    simp only [Bool.and_eq_true] at h
    rcases List.mem_cons.mp hx with h1 | h1
    · subst h1; exact h.1
    · exact ih h.2 h1

theorem hierWFField_coll_arr {doc : Val} {name : String} {xs : List Val}
    (hget : getField doc name = .arr xs) :
    hierWFField doc name .coll = hierWFList xs name := by
  unfold hierWFField
  split
  · rename_i xs2 heq
    rw [hget] at heq
    injection heq with h2
    rw [h2]
  · rename_i hne
    exact absurd hget (hne xs)

theorem hierWFField_coll_other {doc : Val} {name : String} {v : Val}
    (hget : getField doc name = v) (hv : isArr v = false) :
    hierWFField doc name .coll = !truthy v := by
  unfold hierWFField
  split
  · rename_i xs2 heq
    rw [hget] at heq
    subst heq
    simp [isArr] at hv
  · rw [hget]

theorem hierWFField_single_nullish {doc : Val} {name : String}
    (h : nullish (getField doc name) = true) :
    hierWFField doc name .single = true := by
  unfold hierWFField
  rw [dif_pos h]

theorem hierWFField_single_not {doc : Val} {name : String}
    (h : nullish (getField doc name) = false) :
    hierWFField doc name .single =
      (truthy (getField doc name) && hierWF (getField doc name) name) := by
  unfold hierWFField
  rw [dif_neg (by simp [h])]

theorem walkSpecField_coll_arr (f : Val → String → Val → Val) {doc : Val} {o : Val}
    {name : String} {xs : List Val} (hget : getField doc name = .arr xs) :
    walkSpecField f doc o name .coll = walkSpecList f xs name o := by
  unfold walkSpecField
  split
  · rename_i xs2 heq
    rw [hget] at heq
    injection heq with h2
    rw [h2]
  · rename_i hne
    exact absurd hget (hne xs)

theorem walkSpecField_coll_other (f : Val → String → Val → Val) {doc : Val} {o : Val}
    {name : String} {v : Val} (hget : getField doc name = v) (hv : isArr v = false) :
    walkSpecField f doc o name .coll = [] := by
  unfold walkSpecField
  split
  · rename_i xs2 heq
    rw [hget] at heq
    subst heq
    simp [isArr] at hv
  · rfl

theorem walkSpecField_single_nullish (f : Val → String → Val → Val) {doc : Val} {o : Val}
    {name : String} (h : nullish (getField doc name) = true) :
    walkSpecField f doc o name .single = [] := by
  unfold walkSpecField
  rw [dif_pos h]

theorem walkSpecField_single_not (f : Val → String → Val → Val) {doc : Val} {o : Val}
    {name : String} (h : nullish (getField doc name) = false) :
    walkSpecField f doc o name .single = walkSpec f (getField doc name) name o := by
  unfold walkSpecField
  rw [dif_neg (by simp [h])]

theorem walkSpec_eq (f : Val → String → Val → Val) (doc : Val) (collection : String)
    (ctx : Val) :
    walkSpec f doc collection ctx =
      (doc, collection, ctx) ::
        (hierFields collection).flatMap (fun fk =>
          walkSpecField f doc (f doc collection ctx) fk.1 fk.2) := by
  rw [walkSpec]

theorem c5_list (f : Val → String → Val → Val) (n : Nat)
    (IH : ∀ (d : Val) (c : String) (o : Val) (s2 : List (Val × String × Val)),
      Val.size d < n → hierWF d c = true →
      applyHierarchy (traceVisitor f) n s2 d c o = .ok (s2 ++ walkSpec f d c o, d)) :
    ∀ (xs : List Val) (s : List (Val × String × Val)) (name : String) (opts : Val),
      (∀ x ∈ xs, Val.size x < n ∧ hierWF x name = true) →
      applyHierarchyList (applyHierarchy (traceVisitor f) n) s xs name opts =
        .ok (s ++ walkSpecList f xs name opts, xs) := by
  intro xs
  induction xs with
  | nil =>
    intro s name opts _
    rw [walkSpecList]
    simp [applyHierarchyList]
  | cons x rest ih =>
    intro s name opts hx
    obtain ⟨hx1, hx2⟩ := hx x (List.mem_cons_self x rest)
    simp only [applyHierarchyList]
    rw [IH x name opts s hx1 hx2]
    simp only [bind, Except.bind]
    rw [ih (s ++ walkSpec f x name opts) name opts
      (fun y hy => hx y (List.mem_cons_of_mem _ hy))]
    rw [walkSpecList]
    simp [List.append_assoc]

theorem c5_fields (f : Val → String → Val → Val) (n : Nat)
    (IH : ∀ (d : Val) (c : String) (o : Val) (s2 : List (Val × String × Val)),
      Val.size d < n → hierWF d c = true →
      applyHierarchy (traceVisitor f) n s2 d c o = .ok (s2 ++ walkSpec f d c o, d)) :
    ∀ (entries : List (String × FieldKind)) (doc : Val)
      (s : List (Val × String × Val)) (opts : Val),
      Val.size doc ≤ n →
      (∀ fk ∈ entries, hierWFField doc fk.1 fk.2 = true) →
      applyHierarchyFields (applyHierarchy (traceVisitor f) n) s doc entries opts =
        .ok (s ++ entries.flatMap (fun fk => walkSpecField f doc opts fk.1 fk.2), doc) := by
  intro entries
  induction entries with
  | nil =>
    intro doc s opts _ _
    simp [applyHierarchyFields]
  | cons e rest ih =>
    intro doc s opts hsz hwfF
    obtain ⟨name, kind⟩ := e
    have hwfh : hierWFField doc name kind = true :=
      hwfF (name, kind) (List.mem_cons_self _ _)
    have hwfr : ∀ fk ∈ rest, hierWFField doc fk.1 fk.2 = true :=
      fun fk hfk => hwfF fk (List.mem_cons_of_mem _ hfk)
    simp only [applyHierarchyFields]
    cases kind with
    | coll =>
      cases hget : getField doc name
      case arr xs =>
        rw [hierWFField_coll_arr hget] at hwfh
        have harrsz : Val.size (Val.arr xs) < Val.size doc := by
          have : getField doc name ≠ Val.undefined := by rw [hget]; intro hc; cases hc
          have h2 := getField_size this
          rw [hget] at h2
          exact h2
        simp only [hget]
        rw [c5_list f n IH xs s name opts (fun x hxm =>
          ⟨by have := Val.size_mem_arr hxm; omega,
           hierWFList_mem hwfh x hxm⟩)]
        simp only [bind, Except.bind]
        rw [setWB_self hget (by intro hc; cases hc)]
        rw [ih doc (s ++ walkSpecList f xs name opts) opts hsz hwfr]
        rw [List.flatMap_cons, walkSpecField_coll_arr f hget]
        simp [List.append_assoc]
      all_goals (
        rw [hierWFField_coll_other hget (by simp [isArr])] at hwfh
        simp only [hget]
        rw [if_neg (by simp_all)]
        rw [ih doc s opts hsz hwfr]
        rw [List.flatMap_cons, walkSpecField_coll_other f hget (by simp [isArr])]
        simp)
    | single =>
      by_cases hnul : nullish (getField doc name) = true
      · have htr : truthy (getField doc name) = false := by
          cases hv : getField doc name <;> rw [hv] at hnul <;> simp [nullish] at hnul <;>
            simp [truthy]
        rw [if_neg (by simp [htr])]
        rw [ih doc s opts hsz hwfr]
        rw [List.flatMap_cons, walkSpecField_single_nullish f hnul]
        simp
      · have hnul2 : nullish (getField doc name) = false := by
          cases hv : nullish (getField doc name)
          · rfl
          · exact absurd hv hnul
        rw [hierWFField_single_not hnul2] at hwfh
        simp only [Bool.and_eq_true] at hwfh
        obtain ⟨htr, hwfc⟩ := hwfh
        rw [if_pos htr]
        have hne : getField doc name ≠ Val.undefined := by
          intro hc; rw [hc] at hnul2; simp [nullish] at hnul2
        have hchsz : Val.size (getField doc name) < Val.size doc := getField_size hne
        rw [IH (getField doc name) name opts s (by omega) hwfc]
        simp only [bind, Except.bind]
        rw [setWB_self rfl hne]
        rw [ih doc (s ++ walkSpec f (getField doc name) name opts) opts hsz hwfr]
        rw [List.flatMap_cons, walkSpecField_single_not f hnul2]
        simp [List.append_assoc]

theorem c5_main (f : Val → String → Val → Val)
    (hf : ∀ d c o, nullish (f d c o) = false) :
    ∀ (fuel : Nat) (doc : Val) (collection : String) (ctx : Val)
      (s : List (Val × String × Val)),
      Val.size doc < fuel → hierWF doc collection = true →
      applyHierarchy (traceVisitor f) fuel s doc collection ctx =
        .ok (s ++ walkSpec f doc collection ctx, doc) := by
  intro fuel
  induction fuel with
  | zero =>
    intro doc collection ctx s hsz _
    exact absurd hsz (by omega)
  | succ n ihn =>
    intro doc collection ctx s hsz hwf
    have hAll : ∀ fk ∈ hierFields collection, hierWFField doc fk.1 fk.2 = true := by
      rw [hierWF] at hwf
      simp only [List.all_eq_true] at hwf
      intro fk hfk
      exact hwf fk hfk
    simp only [applyHierarchy, traceVisitor, bind, Except.bind]
    rw [hf doc collection ctx]
    simp only [Bool.false_eq_true, if_false]
    rw [c5_fields f n (fun d c o s2 hd hc => ihn d c o s2 hd hc) (hierFields collection) doc
      (s ++ [(doc, collection, ctx)]) (f doc collection ctx) (by omega) hAll]
    rw [walkSpec_eq]
    simp [List.append_assoc]

/-- C5.  Refinement of the Hierarchy Walker against the spec's contract: for
any non-mutating visitor returning a non-nullish context (modelled by the
context function `f` recorded by `traceVisitor`), on any document
well-formed for the schema (`hierWF`) and with enough call-stack fuel, the
walker's visit trace equals `walkSpec` — the spec-side pre-order traversal
that visits the root first, then every embedded node the schema declares,
passes each child the context value the visitor returned for its parent,
visits collection-valued fields once per element in original order and
singular fields only when present and non-null, and treats absent schema
fields as empty — and the document is returned unchanged. -/
theorem c5_walker_preorder (f : Val → String → Val → Val) (doc : Val)
    (collection : String) (ctx : Val) (fuel : Nat)
    (hf : ∀ d c o, nullish (f d c o) = false)
    (hwf : hierWF doc collection = true)
    (hfuel : Val.size doc < fuel) :
    applyHierarchy (traceVisitor f) fuel [] doc collection ctx =
      .ok (walkSpec f doc collection ctx, doc) := by
  have h := c5_main f hf fuel doc collection ctx [] hfuel hwf
  simpa using h

/-- The context function of the C5 witness. -/
def c5wF : Val → String → Val → Val := fun _ _ _ => Val.obj [("k", .null)]

/-- The document of the C5 witness: an actor with two embedded items. -/
def c5wDoc : Val :=
  .obj [("_id", .str "a"),
    ("items", .arr [.obj [("_id", .str "i1")], .obj [("_id", .str "i2")]])]

/-- Witness for C5: on a concrete actor the walker's trace is the root
visit followed by the two items in order, each receiving the context the
visitor returned for the root. -/
theorem c5_walker_preorder_witness :
    applyHierarchy (traceVisitor c5wF) 9 [] c5wDoc "actors" (Val.obj []) =
      .ok (walkSpec c5wF c5wDoc "actors" (Val.obj []), c5wDoc) ∧
    walkSpec c5wF c5wDoc "actors" (Val.obj []) =
      [(c5wDoc, "actors", Val.obj []),
       (.obj [("_id", .str "i1")], "items", Val.obj [("k", .null)]),
       (.obj [("_id", .str "i2")], "items", Val.obj [("k", .null)])] := by
  constructor
  · exact c5_walker_preorder c5wF c5wDoc "actors" (Val.obj []) 9
      (fun _ _ _ => rfl)
      (by simp [hierWF, hierWFField, hierWFList, c5wDoc, hierFields, lookupHier,
        HIERARCHY, getField, lookupField, truthy])
      (by decide)
  · simp [walkSpec, walkSpecField, walkSpecList, c5wDoc, c5wF, hierFields,
      lookupHier, HIERARCHY, getField, lookupField, nullish, truthy]
